import Mathlib

/-! ## Calculator.cpp : a shallow embedding

The expression pipeline of `Calculator.cpp`:
`filterExpression → checkParenthesis → toReversePolishNotation → calcLine`.

* the C++ `string` is the list of its characters (`Str`);
* `StackSHPP<T>` is a list whose head is the top, `QueueSHPP<T>` a list whose
  head is the front (`enqueue` appends at the end);
* `double` and its operations are kept abstract (`DoubleOps`): the theorems
  hold for every interpretation of `+ - * / pow`, unary minus and `stod`;
* a failing stack operation is an `Except` error.
-/

namespace Calculator

/-- The C++ `string`, as the sequence of its characters. -/
abbrev Str := List Char

/-- Error kinds of one evaluation (spec §7). -/
inductive EvaluationError
  | UnbalancedParentheses
  | StackUnderflow
  deriving DecidableEq, Repr

/-! ## Containers -/

/-- Modelled from the spec: `StackSHPP<T>` (stackshpp.h is not under src/), a
last-in-first-out container; the head of the list is the top of the stack. -/
abbrev StackSHPP (α : Type) := List α

/-- Modelled from the spec: `StackSHPP::push`. -/
def StackSHPP.push {α : Type} (s : StackSHPP α) (x : α) : StackSHPP α := x :: s

/-- Modelled from the spec: `StackSHPP::pop` (stackshpp.h is not under src/);
popping the empty stack is the StackUnderflow condition of spec §7. -/
def StackSHPP.pop {α : Type} : StackSHPP α → Except EvaluationError (α × StackSHPP α)
  | [] => Except.error EvaluationError.StackUnderflow
  | x :: s => Except.ok (x, s)

/-- Modelled from the spec: `StackSHPP::top` (stackshpp.h is not under src/);
reading the top of the empty stack is the StackUnderflow condition of spec §7. -/
def StackSHPP.top {α : Type} : StackSHPP α → Except EvaluationError α
  | [] => Except.error EvaluationError.StackUnderflow
  | x :: _ => Except.ok x

/-- Modelled from the spec: `QueueSHPP::enqueue` (queueshpp.h is not under
src/): the new element goes to the back of the queue. -/
def QueueSHPP.enqueue {α : Type} (q : List α) (x : α) : List α := q ++ [x]

/-! ## Characters and operators -/

/-- The `isdigit` of `<cctype>` on a character. -/
def isdigit (ch : Char) : Bool := ch.isDigit

/-- The expression `s[0]` of a C++ string: its first character, and the
terminating NUL for the empty string. -/
def charAt0 (s : Str) : Char := s.headD (Char.ofNat 0)

/-- `isOperator` (Calculator.cpp:210). -/
def isOperator (ch : Str) : Bool :=
  ch == ['+'] || ch == ['-'] || ch == ['/'] || ch == ['*'] || ch == ['^']

/-- `opPriority` (Calculator.cpp:224). -/
def opPriority (op : Char) : Nat :=
  if op = '+' ∨ op = '-' then 1
  else if op = '*' ∨ op = '/' then 2
  else if op = '^' then 3
  else 0

/-! ## Sanitizer -/

/-- The test of the `if` in `filterExpression` (Calculator.cpp:63). -/
def filterKeeps (ch : Char) : Bool :=
  isdigit ch || isOperator [ch] || ch == '(' || ch == ')' || ch == '.'

/-- Loop of `filterExpression`: `result += ch` for every kept character. -/
def filterLoop : Str → Str → Str
  | [], result => result
  | ch :: rest, result =>
    if filterKeeps ch then filterLoop rest (result ++ [ch]) else filterLoop rest result

/-- `filterExpression` (Calculator.cpp:60). -/
def filterExpression (expression : Str) : Str := filterLoop expression []

/-! ## Balance checker -/

/-- One round of the loop of `checkParenthesis` (Calculator.cpp:87-97), on the
pair (`result`, `stack`). The `pop` is guarded by `!stack.isEmpty()`, so it is
the tail of the list. -/
def checkStep (st : Bool × StackSHPP Char) (ch : Char) : Bool × StackSHPP Char :=
  let stack1 := if ch = '(' then StackSHPP.push st.2 ch else st.2
  if ch = ')' ∧ ¬ stack1.isEmpty then (st.1, stack1.tail)
  else if ch = ')' ∧ stack1.isEmpty then (false, stack1)
  else (st.1, stack1)

/-- The state (`result`, `stack`) of `checkParenthesis` after scanning the
given characters, from a given state. -/
def checkLoop : Str → Bool × StackSHPP Char → Bool × StackSHPP Char
  | [], st => st
  | ch :: rest, st => checkLoop rest (checkStep st ch)

/-- `checkParenthesis` (Calculator.cpp:84). -/
def checkParenthesis (expression : Str) : Bool :=
  let st := checkLoop expression (true, [])
  if ¬ st.2.isEmpty then false else st.1

/-! ## Tokenizer -/

/-- Modelled from the spec: the `TokenScanner` of tokenscanner.h (not under
src/) with `scanNumbers` and `ignoreWhitespace`, spec §4.3. The scanner state
is the number token being read, if any, with the flag "a decimal point was read".
A digit starts a number token, which takes all following digits and at most one
decimal point; every other character is a one-character token; whitespace is
skipped. -/
def scanTokens : Option (Str × Bool) → Str → List Str
  | none, [] => []
  | some (tok, _), [] => [tok]
  | none, ch :: rest =>
    if isdigit ch then scanTokens (some ([ch], false)) rest
    else if ch.isWhitespace then scanTokens none rest
    else [ch] :: scanTokens none rest
  | some (tok, dot), ch :: rest =>
    if isdigit ch then scanTokens (some (tok ++ [ch], dot)) rest
    else if ch = '.' ∧ dot = false then scanTokens (some (tok ++ [ch], true)) rest
    else if ch.isWhitespace then tok :: scanTokens none rest
    else tok :: [ch] :: scanTokens none rest

/-- Modelled from the spec: all tokens of a line, in order (the successive
results of `scanner.nextToken()` while `scanner.hasMoreTokens()`). -/
def TokenScanner.tokens (line : Str) : List Str := scanTokens none line

/-! ## Infix to postfix -/

/-- The local variables of `toReversePolishNotation` that live across the loop. -/
structure RpnState where
  result : List Str
  operators : StackSHPP Str
  minusTrigger : Bool
  prevToken : Str
  deriving DecidableEq, Repr

/-- The loop `while (operators.top() != "(") result.enqueue(operators.pop());`
(Calculator.cpp:148): returns the stack, with "(" on top, and the queue. -/
def closeParenLoop : StackSHPP Str → List Str → Except EvaluationError (StackSHPP Str × List Str)
  | [], _ => Except.error EvaluationError.StackUnderflow
  | t :: ops, result =>
    if t ≠ ['('] then closeParenLoop ops (QueueSHPP.enqueue result t)
    else Except.ok (t :: ops, result)

/-- The loop `while (operators.size() > 0 && opPriority(operators.top()[0]) >=
opPriority(token[0])) result.enqueue(operators.pop());` (Calculator.cpp:153). -/
def operatorLoop (token : Str) : StackSHPP Str → List Str → StackSHPP Str × List Str
  | [], result => ([], result)
  | t :: ops, result =>
    if opPriority (charAt0 t) ≥ opPriority (charAt0 token) then
      operatorLoop token ops (QueueSHPP.enqueue result t)
    else (t :: ops, result)

/-- One round of the token loop of `toReversePolishNotation`
(Calculator.cpp:133-158). -/
def rpnStep (st : RpnState) (token : Str) : Except EvaluationError RpnState :=
  if isdigit (charAt0 token) ∧ st.minusTrigger = true then
    Except.ok ⟨QueueSHPP.enqueue st.result ('-' :: token), st.operators, false, token⟩
  else if isdigit (charAt0 token) then
    Except.ok ⟨QueueSHPP.enqueue st.result token, st.operators, st.minusTrigger, token⟩
  else if (token = ['-'] ∧ st.prevToken = []) ∨ (token = ['-'] ∧ st.prevToken = ['(']) then
    Except.ok ⟨st.result, st.operators, true, token⟩
  else if token = ['('] then
    Except.ok ⟨st.result, StackSHPP.push st.operators token, st.minusTrigger, token⟩
  else if token = [')'] then
    match closeParenLoop st.operators st.result with
    | Except.error e => Except.error e
    | Except.ok (ops, res) =>
      match StackSHPP.pop ops with
      | Except.error e => Except.error e
      | Except.ok (_, ops1) => Except.ok ⟨res, ops1, st.minusTrigger, token⟩
  else if isOperator token then
    let r := operatorLoop token st.operators st.result
    Except.ok ⟨r.2, StackSHPP.push r.1 token, st.minusTrigger, token⟩
  else
    Except.ok ⟨st.result, st.operators, st.minusTrigger, token⟩

/-- The token loop of `toReversePolishNotation` (Calculator.cpp:132-159). -/
def rpnLoop : List Str → RpnState → Except EvaluationError RpnState
  | [], st => Except.ok st
  | token :: rest, st =>
    match rpnStep st token with
    | Except.error e => Except.error e
    | Except.ok st1 => rpnLoop rest st1

/-- The loop `while (!operators.isEmpty()) result.enqueue(operators.pop());`
(Calculator.cpp:160). -/
def drainLoop : StackSHPP Str → List Str → List Str
  | [], result => result
  | t :: ops, result => drainLoop ops (QueueSHPP.enqueue result t)

/-- The body of `toReversePolishNotation` on the tokens delivered by the
scanner. -/
def rpnOfTokens (tokens : List Str) : Except EvaluationError (List Str) :=
  match rpnLoop tokens ⟨[], [], false, []⟩ with
  | Except.error e => Except.error e
  | Except.ok st => Except.ok (drainLoop st.operators st.result)

/-- `toReversePolishNotation` (Calculator.cpp:117). -/
def toReversePolishNotation (line : Str) : Except EvaluationError (List Str) :=
  rpnOfTokens (TokenScanner.tokens line)

/-! ## Postfix evaluation -/

/-- The `double` arithmetic the evaluator relies on, kept abstract: the literal
`0.0`, unary minus, the four operators, `pow` of `<cmath>` and `stod` of
`<string>`. -/
structure DoubleOps (α : Type) where
  zero : α
  neg : α → α
  add : α → α → α
  sub : α → α → α
  mul : α → α → α
  div : α → α → α
  pow : α → α → α
  stod : Str → α

/-- `doOperation` (Calculator.cpp:250). -/
def doOperation {α : Type} (D : DoubleOps α) (o1 o2 : α) (op : Str) : α :=
  if op = ['+'] then D.add o1 o2
  else if op = ['-'] then D.sub o1 o2
  else if op = ['*'] then D.mul o1 o2
  else if op = ['/'] then D.div o1 o2
  else if op = ['^'] then D.pow o1 o2
  else D.zero

/-- The loop of `calcLine` (Calculator.cpp:183-196) on the queue `line` and the
stack `numbers`. -/
def calcLoop {α : Type} (D : DoubleOps α) : List Str → StackSHPP α → Except EvaluationError (StackSHPP α)
  | [], numbers => Except.ok numbers
  | tmp :: line, numbers =>
    if tmp.length > 1 ∧ charAt0 tmp = '-' then
      calcLoop D line (StackSHPP.push numbers (D.neg (D.stod (tmp.drop 1))))
    else if tmp.length > 1 ∧ isdigit (charAt0 tmp) = true then
      calcLoop D line (StackSHPP.push numbers (D.stod tmp))
    else if isdigit (charAt0 tmp) then
      calcLoop D line (StackSHPP.push numbers (D.stod tmp))
    else
      match StackSHPP.pop numbers with
      | Except.error e => Except.error e
      | Except.ok (o2, numbers1) =>
        match StackSHPP.pop numbers1 with
        | Except.error e => Except.error e
        | Except.ok (o1, numbers2) =>
          calcLoop D line (StackSHPP.push numbers2 (doOperation D o1 o2 tmp))

/-- `calcLine` (Calculator.cpp:180). -/
def calcLine {α : Type} (D : DoubleOps α) (line : List Str) : Except EvaluationError α :=
  match calcLoop D line [] with
  | Except.error e => Except.error e
  | Except.ok numbers =>
    match StackSHPP.pop numbers with
    | Except.error e => Except.error e
    | Except.ok (r, _) => Except.ok r

/-- One round of the loop of `main` (Calculator.cpp:36-44): the value printed
after "Result:", or the rejection. -/
def evaluate {α : Type} (D : DoubleOps α) (raw : Str) : Except EvaluationError α :=
  let expression := filterExpression raw
  if checkParenthesis expression then
    match toReversePolishNotation expression with
    | Except.error e => Except.error e
    | Except.ok polishNotation => calcLine D polishNotation
  else Except.error EvaluationError.UnbalancedParentheses

/-! ## Specification-side notions -/

/-- The ASCII digits, as the spec names them. -/
def asciiDigits : List Char := ['0', '1', '2', '3', '4', '5', '6', '7', '8', '9']

/-- The character set of a sanitized string (spec §4.1): ASCII digits, the
decimal point, the five operator symbols and the two parentheses. -/
def allowedChar (c : Char) : Prop :=
  c ∈ asciiDigits ∨ c ∈ ['.', '+', '-', '*', '/', '^', '(', ')']

instance (c : Char) : Decidable (allowedChar c) := by
  unfold allowedChar; infer_instance

/-- Balanced parentheses, as the spec words it: no leading segment of `s` has
more `)` than `(`, and `s` has equally many `(` and `)`. -/
def balanced (s : Str) : Prop :=
  (∀ n : Nat, (s.take n).count ')' ≤ (s.take n).count '(') ∧ s.count '(' = s.count ')'

/-- The five binary operators. -/
inductive Op
  | add
  | sub
  | mul
  | div
  | pow
  deriving DecidableEq, Repr

/-- The character of an operator. -/
def Op.symbol : Op → Char
  | Op.add => '+'
  | Op.sub => '-'
  | Op.mul => '*'
  | Op.div => '/'
  | Op.pow => '^'

/-- The one-character token of an operator. -/
def Op.token (o : Op) : Str := [o.symbol]

/-- The rest of an unsigned number literal: digits with at most one decimal
point; the flag says that the decimal point was already met. -/
def literalTail : Bool → Str → Bool
  | _, [] => true
  | dot, ch :: rest =>
    if isdigit ch then literalTail dot rest
    else if ch = '.' ∧ dot = false then literalTail true rest
    else false

/-- An unsigned number literal: a digit, then digits with at most one decimal
point among them (`7`, `12.5`, `3.`). -/
def isLiteral : Str → Bool
  | [] => false
  | ch :: rest => isdigit ch && literalTail false rest

/-- The one-character tokens of an infix expression: an operator or a
parenthesis. -/
def isSymbolToken (t : Str) : Bool := isOperator t || t == ['('] || t == [')']

/-- No two number literals are neighbours in a token sequence. -/
def separated : List Str → Bool
  | a :: b :: rest => !(isLiteral a && isLiteral b) && separated (b :: rest)
  | _ => true

/-- A token that `calcLine` reads as a number (Calculator.cpp:185-190): more
than one character with a leading `-`, or a leading digit. -/
def isNumberToken (tmp : Str) : Bool :=
  (decide (tmp.length > 1) && charAt0 tmp == '-') || isdigit (charAt0 tmp)

/-- The value `calcLine` pushes for a number token (Calculator.cpp:185-190). -/
def numberValue {α : Type} (D : DoubleOps α) (tmp : Str) : α :=
  if tmp.length > 1 ∧ charAt0 tmp = '-' then D.neg (D.stod (tmp.drop 1)) else D.stod tmp

/-- An expression tree: number tokens at the leaves, binary operators inside. -/
inductive Tree
  | leaf (tok : Str)
  | node (op : Op) (l r : Tree)
  deriving DecidableEq, Repr

/-- The leaves of a tree, left to right. -/
def Tree.leaves : Tree → List Str
  | Tree.leaf tok => [tok]
  | Tree.node _ l r => l.leaves ++ r.leaves

/-- Post-order traversal: left subtree, right subtree, operator. -/
def Tree.postorder : Tree → List Str
  | Tree.leaf tok => [tok]
  | Tree.node op l r => l.postorder ++ r.postorder ++ [op.token]

/-- The fully parenthesised infix tokens: `(` left op right `)` at every inner
node. -/
def Tree.infixTokens : Tree → List Str
  | Tree.leaf tok => [tok]
  | Tree.node op l r => [['(']] ++ l.infixTokens ++ [op.token] ++ r.infixTokens ++ [[')']]

/-- The value of a tree: a leaf is read as `calcLine` reads a number token, an
inner node applies `doOperation` to the left value, the right value and the
operator. -/
def Tree.value {α : Type} (D : DoubleOps α) : Tree → α
  | Tree.leaf tok => numberValue D tok
  | Tree.node op l r => doOperation D (l.value D) (r.value D) op.token

/-- A well-formed infix expression: operands separated by one binary operator
each; an operand is a number literal or a parenthesised well-formed expression;
the first operand, when it is a number literal, may carry a leading `-`. -/
inductive WfExpr
  | num (minus : Bool) (n : Str)
  | par (e : WfExpr)
  | opNum (l : WfExpr) (op : Op) (n : Str)
  | opPar (l : WfExpr) (op : Op) (e : WfExpr)
  deriving DecidableEq, Repr

/-- The tokens of a well-formed expression, in order. -/
def WfExpr.tokens : WfExpr → List Str
  | WfExpr.num false n => [n]
  | WfExpr.num true n => [['-'], n]
  | WfExpr.par e => [['(']] ++ e.tokens ++ [[')']]
  | WfExpr.opNum l op n => l.tokens ++ [op.token, n]
  | WfExpr.opPar l op e => l.tokens ++ [op.token, ['(']] ++ e.tokens ++ [[')']]

/-- The number literals of a well-formed expression. -/
def WfExpr.literals : WfExpr → List Str
  | WfExpr.num _ n => [n]
  | WfExpr.par e => e.literals
  | WfExpr.opNum l _ n => l.literals ++ [n]
  | WfExpr.opPar l _ e => l.literals ++ e.literals

/-- The text of a well-formed expression: its tokens written one after the
other. -/
def WfExpr.text (e : WfExpr) : Str := e.tokens.flatten

/-- Symbolic values: the free interpretation of the `double` operations, in
which every result records how it was computed. -/
inductive Sym
  | num (tok : Str)
  | zero
  | neg (x : Sym)
  | add (x y : Sym)
  | sub (x y : Sym)
  | mul (x y : Sym)
  | div (x y : Sym)
  | pow (x y : Sym)
  deriving DecidableEq, Repr

/-- The symbolic interpretation of the `double` operations. -/
def symbolicOps : DoubleOps Sym :=
  ⟨Sym.zero, Sym.neg, Sym.add, Sym.sub, Sym.mul, Sym.div, Sym.pow, Sym.num⟩

/-- The depth counter of a postfix sequence: one more at each number token;
at each other token at least two are required and one is taken away. `none`
when a requirement is not met. -/
def depthRun : List Str → Nat → Option Nat
  | [], d => some d
  | tmp :: line, d =>
    if isNumberToken tmp then depthRun line (d + 1)
    else if 2 ≤ d then depthRun line (d - 1)
    else none

/-- Every entry of the operator stack is `(` or one of the five operators. -/
def stackEntriesOk (ops : StackSHPP Str) : Prop :=
  ∀ x ∈ ops, x = ['('] ∨ ∃ op : Op, x = op.token

/-- The number of operators on the operator stack. -/
def opCount (ops : StackSHPP Str) : Nat := (ops.filter (fun x => x != ['('])).length

/-- The number of `(` markers on the operator stack. -/
def parenCount (ops : StackSHPP Str) : Nat := ops.count ['(']

/-- The converter waits for an operand: the queue, run as postfix, leaves as
many values as there are operators on the stack. -/
def Expecting (res : List Str) (ops : StackSHPP Str) : Prop :=
  stackEntriesOk ops ∧ depthRun res 0 = some (opCount ops)

/-- The converter has just read an operand: the queue, run as postfix, leaves
one value more than there are operators on the stack. -/
def Holding (res : List Str) (ops : StackSHPP Str) : Prop :=
  stackEntriesOk ops ∧ depthRun res 0 = some (opCount ops + 1)

/-- The tokens `toks`, met while an operand is expected and `prev` was the
previous token, are converted without error and leave the converter holding an
operand, with as many `(` on the stack as before and the flag cleared. -/
def Converts (toks : List Str) (prev : Str) : Prop :=
  ∀ (rest res : List Str) (ops : StackSHPP Str), Expecting res ops →
    ∃ (res1 : List Str) (ops1 : StackSHPP Str) (prev1 : Str),
      rpnLoop (toks ++ rest) ⟨res, ops, false, prev⟩
        = rpnLoop rest ⟨res1, ops1, false, prev1⟩
      ∧ prev1 ≠ [] ∧ prev1 ≠ ['('] ∧ Holding res1 ops1
      ∧ parenCount ops1 = parenCount ops

/-- The height of open parentheses along a token sequence: one more at `(`, one
less at `)`, which requires a height of at least 1; `none` when a `)` has no
`(` to close. -/
def tokDepth : List Str → Nat → Option Nat
  | [], h => some h
  | t :: ts, h =>
    if t = ['('] then tokDepth ts (h + 1)
    else if t = [')'] then (if 1 ≤ h then tokDepth ts (h - 1) else none)
    else tokDepth ts h

/-- An element of the postfix sequence that `calcLine` can handle: a number
token, a number token with `-` in front, or one of the five operators. -/
def outputOk (x : Str) : Prop :=
  isdigit (charAt0 x) = true ∨ (∃ n : Str, x = '-' :: n ∧ isdigit (charAt0 n) = true)
    ∨ ∃ op : Op, x = op.token

/-- The scanner is either between tokens or inside a number token, which starts
with a digit. -/
def scannerOk (sc : Option (Str × Bool)) : Prop :=
  ∀ (tok : Str) (dot : Bool), sc = some (tok, dot) → isdigit (charAt0 tok) = true


/-- An emitted number `out` is the input number token `inp`, unchanged or with
`-` in front. -/
def signedCopy (out inp : Str) : Prop := out = inp ∨ out = '-' :: inp

/-- The number tokens of an infix token sequence: the tokens that start with a
digit. -/
def numberTokens (ts : List Str) : List Str := ts.filter (fun t => isdigit (charAt0 t))


/-- Maximal munch along a token sequence: right after a number literal comes no
token that starts with a digit, and a decimal point comes only when the literal
already has one. -/
def maximalMunch : List Str → Bool
  | a :: b :: rest =>
    (!(isLiteral a) || (!(isdigit (charAt0 b)) && (b != ['.'] || a.contains '.')))
      && maximalMunch (b :: rest)
  | _ => true

/-- The characters the scanner has read for the token it is in. -/
def pendingToken : Option (Str × Bool) → Str
  | none => []
  | some (tok, _) => tok

/-- Inside a number token the scanner holds a number literal, and its flag tells
whether the literal has its decimal point. -/
def scannerInLiteral (sc : Option (Str × Bool)) : Prop :=
  ∀ (tok : Str) (dot : Bool), sc = some (tok, dot) →
    isLiteral tok = true ∧ (dot = true ↔ '.' ∈ tok)


/-! ## Lemmas : sanitizer -/

theorem isdigit_iff_mem (c : Char) : isdigit c = true ↔ c ∈ asciiDigits := by
  constructor
  · intro h
    have h1 : 48 ≤ c.toNat ∧ c.toNat ≤ 57 := by
      simp only [isdigit, Char.isDigit, Bool.and_eq_true, decide_eq_true_eq] at h
      exact ⟨h.1, h.2⟩
    obtain ⟨ha, hb⟩ := h1
    rw [← Char.ofNat_toNat c]
    generalize c.toNat = n at ha hb
    interval_cases n <;> decide
  · intro h
    simp only [asciiDigits, List.mem_cons, List.mem_singleton] at h
    rcases h with h | h | h | h | h | h | h | h | h | h | h <;>
      first | (subst h; decide) | simp at h

theorem isOperator_singleton (c : Char) :
    isOperator [c] = true ↔ c ∈ ['+', '-', '/', '*', '^'] := by
  simp [isOperator, or_assoc]

theorem filterKeeps_iff (c : Char) : filterKeeps c = true ↔ allowedChar c := by
  unfold filterKeeps allowedChar
  simp only [Bool.or_eq_true, isdigit_iff_mem, isOperator_singleton, beq_iff_eq,
    List.mem_cons, List.mem_singleton]
  simp only [List.not_mem_nil, or_false]
  tauto

theorem filterLoop_eq (s acc : Str) : filterLoop s acc = acc ++ s.filter filterKeeps := by
  induction s generalizing acc with
  | nil => simp [filterLoop]
  | cons ch rest ih =>
    by_cases h : filterKeeps ch = true
    · simp [filterLoop, h, ih]
    · simp [filterLoop, h, ih]

theorem filterExpression_eq_filter (s : Str) :
    filterExpression s = s.filter filterKeeps := by
  simp [filterExpression, filterLoop_eq]

/-- C6: `filterExpression s` is exactly the subsequence of `s`, in the original
order, of the characters that are an ASCII digit, `.`, `+`, `-`, `*`, `/`, `^`,
`(` or `)`; so its output has only such characters, keeps every such character
of `s` (as often as it occurs), and the function is total. -/
theorem filterExpression_is_allowed_subsequence (s : Str) :
    filterExpression s = s.filter (fun c => decide (allowedChar c))
    ∧ List.Sublist (filterExpression s) s
    ∧ (∀ c ∈ filterExpression s, allowedChar c)
    ∧ (∀ c, allowedChar c → (filterExpression s).count c = s.count c) := by
  have hfun : (fun c => decide (allowedChar c)) = filterKeeps := by
    funext c
    by_cases h : allowedChar c
    · simp [h, (filterKeeps_iff c).2 h]
    · have h2 : filterKeeps c = false := by
        cases hk : filterKeeps c
        · rfl
        · exact absurd ((filterKeeps_iff c).1 hk) h
      simp [h, h2]
  have heq := filterExpression_eq_filter s
  refine ⟨by rw [hfun]; exact heq, ?_, ?_, ?_⟩
  · rw [heq]; exact List.filter_sublist s
  · intro c hc
    rw [heq] at hc
    exact (filterKeeps_iff c).1 (List.mem_filter.1 hc).2
  · intro c hc
    rw [heq, List.count_filter ((filterKeeps_iff c).2 hc)]

/-- C7: `filterExpression` is idempotent: sanitizing a sanitized string changes
nothing. -/
theorem filterExpression_idempotent (s : Str) :
    filterExpression (filterExpression s) = filterExpression s := by
  simp only [filterExpression_eq_filter, List.filter_filter, Bool.and_self]

/-! ## Lemmas : balance checker -/

theorem checkLoop_append (p q : Str) (st : Bool × StackSHPP Char) :
    checkLoop (p ++ q) st = checkLoop q (checkLoop p st) := by
  induction p generalizing st with
  | nil => rfl
  | cons ch rest ih => simp [checkLoop, ih]

theorem checkStep_open (b : Bool) (stk : StackSHPP Char) :
    checkStep (b, stk) '(' = (b, '(' :: stk) := by
  simp [checkStep, StackSHPP.push]

theorem checkStep_close_cons (b : Bool) (x : Char) (stk : StackSHPP Char) :
    checkStep (b, x :: stk) ')' = (b, stk) := by
  simp [checkStep]

theorem checkStep_close_nil (b : Bool) :
    checkStep (b, []) ')' = (false, []) := by
  simp [checkStep]

theorem checkStep_other (b : Bool) (stk : StackSHPP Char) (ch : Char)
    (h1 : ch ≠ '(') (h2 : ch ≠ ')') : checkStep (b, stk) ch = (b, stk) := by
  simp [checkStep, h1, h2]

theorem checkLoop_false (s : Str) (stk : StackSHPP Char) :
    (checkLoop s (false, stk)).1 = false := by
  induction s generalizing stk with
  | nil => rfl
  | cons ch rest ih =>
    by_cases h1 : ch = '('
    · subst h1; rw [checkLoop, checkStep_open]; exact ih _
    · by_cases h2 : ch = ')'
      · subst h2
        cases stk with
        | nil => rw [checkLoop, checkStep_close_nil]; exact ih _
        | cons x stk => rw [checkLoop, checkStep_close_cons]; exact ih _
      · rw [checkLoop, checkStep_other _ _ _ h1 h2]; exact ih _

theorem forall_take_cons (P : Str → Prop) (ch : Char) (rest : Str) (h0 : P []) :
    (∀ n : Nat, P ((ch :: rest).take n)) ↔ ∀ n : Nat, P (ch :: rest.take n) := by
  constructor
  · intro h n; exact h (n + 1)
  · intro h n
    cases n with
    | zero => exact h0
    | succ n => exact h n

/-- The loop invariant of `checkParenthesis`: the flag stays `true` exactly when
no leading segment closes more than the pending markers plus its own opens, and
then the stack height is the number of unclosed opens. -/
theorem checkLoop_spec (s : Str) (b : Bool) (stk : StackSHPP Char) :
    ((checkLoop s (b, stk)).1 = true ↔
      b = true ∧ ∀ n : Nat, (s.take n).count ')' ≤ stk.length + (s.take n).count '(')
    ∧ ((checkLoop s (b, stk)).1 = true →
      (checkLoop s (b, stk)).2.length + s.count ')' = stk.length + s.count '(') := by
  induction s generalizing b stk with
  | nil => simp [checkLoop]
  | cons ch rest ih =>
    have key := forall_take_cons
      (fun l => List.count ')' l ≤ stk.length + List.count '(' l) ch rest (by simp)
    by_cases h1 : ch = '('
    · subst h1
      rw [checkLoop, checkStep_open]
      obtain ⟨ia, ib⟩ := ih b ('(' :: stk)
      have e : ∀ l : Str, List.count ')' ('(' :: l) = List.count ')' l :=
        fun l => List.count_cons_of_ne (by decide) l
      constructor
      · rw [ia, key]
        simp only [List.count_cons_self, List.length_cons, e]
        constructor
        · rintro ⟨hb, h⟩; exact ⟨hb, fun n => by have := h n; omega⟩
        · rintro ⟨hb, h⟩; exact ⟨hb, fun n => by have := h n; omega⟩
      · intro h
        have := ib h
        rw [List.count_cons_self, e]
        simp only [List.length_cons] at this
        omega
    · by_cases h2 : ch = ')'
      · subst h2
        have e : ∀ l : Str, List.count '(' (')' :: l) = List.count '(' l :=
          fun l => List.count_cons_of_ne (by decide) l
        cases stk with
        | nil =>
          rw [checkLoop, checkStep_close_nil]
          have hf := checkLoop_false rest []
          constructor
          · rw [hf]
            constructor
            · intro h; cases h
            · rintro ⟨_, h⟩
              have := h 1
              simp at this
          · rw [hf]; intro h; cases h
        | cons x stk =>
          rw [checkLoop, checkStep_close_cons]
          obtain ⟨ia, ib⟩ := ih b stk
          constructor
          · rw [ia, key]
            simp only [List.count_cons_self, List.length_cons, e]
            constructor
            · rintro ⟨hb, h⟩; exact ⟨hb, fun n => by have := h n; omega⟩
            · rintro ⟨hb, h⟩; exact ⟨hb, fun n => by have := h n; omega⟩
          · intro h
            have := ib h
            rw [List.count_cons_self, e]
            simp only [List.length_cons]
            omega
      · rw [checkLoop, checkStep_other _ _ _ h1 h2]
        obtain ⟨ia, ib⟩ := ih b stk
        have e1 : ∀ l : Str, List.count '(' (ch :: l) = List.count '(' l :=
          fun l => List.count_cons_of_ne (Ne.symm h1) l
        have e2 : ∀ l : Str, List.count ')' (ch :: l) = List.count ')' l :=
          fun l => List.count_cons_of_ne (Ne.symm h2) l
        constructor
        · rw [ia, key]
          simp only [e1, e2]
        · intro h
          rw [e1, e2]
          exact ib h

/-- C5: `checkParenthesis s` is `true` exactly when the parentheses of `s` are
balanced (no leading segment has more `)` than `(`, and `s` has as many `(` as
`)`); a `)` met while no open parenthesis is pending makes the result `false`
whatever follows; `(()())` and the empty string are valid, `(()` and `)(` are
not. -/
theorem checkParenthesis_iff_balanced :
    (∀ s : Str, checkParenthesis s = true ↔ balanced s)
    ∧ (∀ p rest : Str, (checkLoop p (true, [])).2 = [] →
        checkParenthesis (p ++ ')' :: rest) = false)
    ∧ checkParenthesis "(()())".toList = true
    ∧ checkParenthesis "".toList = true
    ∧ checkParenthesis "(()".toList = false
    ∧ checkParenthesis ")(".toList = false := by
  refine ⟨?_, ?_, by decide, by decide, by decide, by decide⟩
  · intro s
    obtain ⟨ia, ib⟩ := checkLoop_spec s true []
    unfold checkParenthesis balanced
    simp only [List.length_nil, Nat.zero_add, true_and] at ia ib
    constructor
    · intro h
      by_cases he : (checkLoop s (true, [])).2.isEmpty = true
      · simp only [he, not_true_eq_false, ite_false] at h
        refine ⟨ia.1 h, ?_⟩
        have := ib h
        rw [List.isEmpty_iff.1 he] at this
        simp at this
        exact this.symm
      · simp [he] at h
    · rintro ⟨h1, h2⟩
      have h := ia.2 h1
      have := ib h
      have hl : (checkLoop s (true, [])).2 = [] := by
        apply List.eq_nil_of_length_eq_zero; omega
      simp [hl, h]
  · intro p rest hp
    have : checkLoop (p ++ ')' :: rest) (true, []) =
        checkLoop rest (false, []) := by
      rw [checkLoop_append, checkLoop]
      have : checkLoop p (true, []) = ((checkLoop p (true, [])).1, []) :=
        Prod.ext rfl hp
      rw [this, checkStep_close_nil]
    unfold checkParenthesis
    simp only [this]
    have hf := checkLoop_false rest []
    by_cases he : (checkLoop rest (false, [])).2.isEmpty = true
    · simp [he, hf]
    · simp [he]

/-! ## Lemmas : tokenizer -/

/-- The characters of the one-character tokens. -/
theorem isSymbolToken_iff (t : Str) :
    isSymbolToken t = true ↔ ∃ c, t = [c] ∧ c ∈ ['+', '-', '/', '*', '^', '(', ')'] := by
  constructor
  · intro h
    simp only [isSymbolToken, isOperator, Bool.or_eq_true, beq_iff_eq] at h
    rcases h with (((((h | h) | h) | h) | h) | h) | h <;> subst h <;> exact ⟨_, rfl, by decide⟩
  · rintro ⟨c, rfl, hc⟩
    simp only [List.mem_cons, List.mem_singleton, List.not_mem_nil, or_false] at hc
    rcases hc with h | h | h | h | h | h | h <;> subst h <;> decide

theorem symbol_char_facts (c : Char) (hc : c ∈ ['+', '-', '/', '*', '^', '(', ')']) :
    isdigit c = false ∧ c ≠ '.' ∧ c.isWhitespace = false := by
  simp only [List.mem_cons, List.mem_singleton, List.not_mem_nil, or_false] at hc
  rcases hc with h | h | h | h | h | h | h <;> subst h <;> decide

theorem scanTokens_none_symbol (c : Char) (rest : Str)
    (hc : c ∈ ['+', '-', '/', '*', '^', '(', ')']) :
    scanTokens none (c :: rest) = [c] :: scanTokens none rest := by
  obtain ⟨h1, _, h3⟩ := symbol_char_facts c hc
  simp [scanTokens, h1, h3]

theorem scanTokens_some_symbol (tok : Str) (dot : Bool) (c : Char) (rest : Str)
    (hc : c ∈ ['+', '-', '/', '*', '^', '(', ')']) :
    scanTokens (some (tok, dot)) (c :: rest) = tok :: scanTokens none (c :: rest) := by
  obtain ⟨h1, h2, h3⟩ := symbol_char_facts c hc
  simp [scanTokens, h1, h2, h3]

theorem scanTokens_literalTail (s rest tok : Str) (dot : Bool)
    (h : literalTail dot s = true) :
    ∃ dot1, scanTokens (some (tok, dot)) (s ++ rest)
      = scanTokens (some (tok ++ s, dot1)) rest := by
  induction s generalizing tok dot with
  | nil => exact ⟨dot, by simp⟩
  | cons ch s ih =>
    by_cases hd : isdigit ch = true
    · simp only [literalTail, hd, ite_true] at h
      obtain ⟨d1, e⟩ := ih (tok ++ [ch]) dot h
      exact ⟨d1, by simp [scanTokens, hd, e]⟩
    · by_cases hp : ch = '.' ∧ dot = false
      · have h : literalTail true s = true := by
          simpa [literalTail, hd, hp] using h
        obtain ⟨d1, e⟩ := ih (tok ++ [ch]) true h
        refine ⟨d1, ?_⟩
        have e2 : scanTokens (some (tok, dot)) (ch :: (s ++ rest))
            = scanTokens (some (tok ++ [ch], true)) (s ++ rest) := by
          obtain ⟨rfl, rfl⟩ := hp
          have hd1 : isdigit '.' = false := by decide
          simp [scanTokens, hd1]
        rw [List.cons_append, e2, e]; simp
      · simp [literalTail, hd, hp] at h

/-- A number literal in front of the input is read as one token, when the
input ends after it or goes on with an operator or a parenthesis. -/
theorem scanTokens_literal (t : Str) (ht : isLiteral t = true) (rest : Str) :
    ∃ dot1, scanTokens none (t ++ rest) = scanTokens (some (t, dot1)) rest := by
  cases t with
  | nil => simp [isLiteral] at ht
  | cons ch s =>
    simp only [isLiteral, Bool.and_eq_true] at ht
    obtain ⟨d1, e⟩ := scanTokens_literalTail s rest [ch] false ht.2
    exact ⟨d1, by simp [scanTokens, ht.1, e]⟩

/-- Writing literals, operators and parentheses one after the other, no two
literals side by side, and scanning the text gives the tokens back. -/
theorem tokens_flatten (ts : List Str)
    (h1 : ∀ t ∈ ts, isLiteral t = true ∨ isSymbolToken t = true)
    (h2 : separated ts = true) :
    TokenScanner.tokens ts.flatten = ts := by
  unfold TokenScanner.tokens
  induction ts with
  | nil => rfl
  | cons t rest ih =>
    have ihr : scanTokens none rest.flatten = rest := by
      apply ih
      · intro u hu; exact h1 u (List.mem_cons_of_mem _ hu)
      · cases rest with
        | nil => rfl
        | cons u rest1 =>
          simp only [separated, Bool.and_eq_true] at h2
          exact h2.2
    by_cases hl : isLiteral t = true
    · obtain ⟨d1, e⟩ := scanTokens_literal t hl rest.flatten
      rw [List.flatten_cons, e]
      cases rest with
      | nil => simp [scanTokens]
      | cons u rest1 =>
        have hu : isLiteral u = false := by
          simp only [separated, Bool.and_eq_true, hl, Bool.true_and, Bool.not_eq_true'] at h2
          exact h2.1
        have hs : isSymbolToken u = true := by
          rcases h1 u (by simp) with h | h
          · rw [hu] at h; cases h
          · exact h
        obtain ⟨c, rfl, hc⟩ := (isSymbolToken_iff u).1 hs
        rw [List.flatten_cons] at ihr ⊢
        simp only [List.singleton_append] at ihr ⊢
        rw [scanTokens_some_symbol _ _ _ _ hc, ihr]
    · have hs : isSymbolToken t = true := by
        rcases h1 t (by simp) with h | h
        · exact absurd h hl
        · exact h
      obtain ⟨c, rfl, hc⟩ := (isSymbolToken_iff t).1 hs
      rw [List.flatten_cons]
      simp only [List.singleton_append]
      rw [scanTokens_none_symbol _ _ hc, ihr]

/-! ## Lemmas : postfix evaluation -/

theorem op_token_facts (op : Op) :
    isdigit (charAt0 op.token) = false ∧ ¬ (op.token.length > 1)
    ∧ op.token ≠ ['('] ∧ op.token ≠ [')'] ∧ isOperator op.token = true
    ∧ 1 ≤ opPriority (charAt0 op.token) := by
  cases op <;> decide

theorem calcLoop_number {α : Type} (D : DoubleOps α) (tok : Str) (line : List Str)
    (numbers : StackSHPP α) (h : isNumberToken tok = true) :
    calcLoop D (tok :: line) numbers = calcLoop D line (numberValue D tok :: numbers) := by
  by_cases h1 : tok.length > 1 ∧ charAt0 tok = '-'
  · simp [calcLoop, numberValue, h1, StackSHPP.push]
  · have h2 : isdigit (charAt0 tok) = true := by
      simp only [isNumberToken, Bool.or_eq_true, Bool.and_eq_true, decide_eq_true_eq,
        beq_iff_eq] at h
      rcases h with h | h
      · exact absurd h h1
      · exact h
    rw [calcLoop, if_neg h1, numberValue, if_neg h1]
    by_cases h3 : tok.length > 1
    · simp [h2, h3, StackSHPP.push]
    · simp [h2, h3, StackSHPP.push]

theorem calcLoop_operator {α : Type} (D : DoubleOps α) (op : Op) (line : List Str)
    (o1 o2 : α) (numbers : StackSHPP α) :
    calcLoop D (op.token :: line) (o2 :: o1 :: numbers)
      = calcLoop D line (doOperation D o1 o2 op.token :: numbers) := by
  obtain ⟨h1, h2, _⟩ := op_token_facts op
  have h3 : ¬ (op.token.length > 1 ∧ charAt0 op.token = '-') := fun h => h2 h.1
  simp [calcLoop, h1, h2, StackSHPP.push, StackSHPP.pop]

theorem calcLoop_postorder {α : Type} (D : DoubleOps α) (t : Tree)
    (h : ∀ tok ∈ t.leaves, isNumberToken tok = true) (line : List Str)
    (numbers : StackSHPP α) :
    calcLoop D (t.postorder ++ line) numbers = calcLoop D line (t.value D :: numbers) := by
  induction t generalizing line numbers with
  | leaf tok =>
    simp only [Tree.postorder, List.singleton_append, Tree.value]
    exact calcLoop_number D tok line numbers (h tok (by simp [Tree.leaves]))
  | node op l r ihl ihr =>
    have hl : ∀ tok ∈ l.leaves, isNumberToken tok = true :=
      fun tok ht => h tok (by simp [Tree.leaves, ht])
    have hr : ∀ tok ∈ r.leaves, isNumberToken tok = true :=
      fun tok ht => h tok (by simp [Tree.leaves, ht])
    simp only [Tree.postorder, List.append_assoc, List.singleton_append, Tree.value]
    rw [ihl hl, ihr hr, calcLoop_operator]

/-- The evaluator on the post-order of a tree whose leaves are number tokens. -/
theorem calcLine_tree {α : Type} (D : DoubleOps α) (t : Tree)
    (h : ∀ tok ∈ t.leaves, isNumberToken tok = true) :
    calcLine D t.postorder = Except.ok (t.value D) := by
  have := calcLoop_postorder D t h [] []
  rw [List.append_nil] at this
  simp [calcLine, this, calcLoop, StackSHPP.pop]

/-- C4: for every expression tree whose leaves are number tokens, `calcLine` on
the post-order token sequence succeeds with the value of the tree, an inner
node being `doOperation(o1, o2, op)` with `o1` the value of the left subtree and
`o2` the value of the right one. -/
theorem calcLine_postorder {α : Type} (D : DoubleOps α) (t : Tree)
    (h : ∀ tok ∈ t.leaves, isNumberToken tok = true) :
    calcLine D t.postorder = Except.ok (t.value D) := by
  have := calcLoop_postorder D t h [] []
  rw [List.append_nil] at this
  simp [calcLine, this, calcLoop, StackSHPP.pop]

/-- C4, at concrete inputs: `[7, 2, -]` gives `7 - 2` and `[7, 2, /]` gives
`7 / 2`, the first operand being the one pushed first. -/
theorem calcLine_postorder_witness :
    (∀ tok ∈ (Tree.node Op.sub (Tree.leaf ['7']) (Tree.leaf ['2'])).leaves,
        isNumberToken tok = true)
    ∧ calcLine symbolicOps [['7'], ['2'], ['-']]
        = Except.ok (Sym.sub (Sym.num ['7']) (Sym.num ['2']))
    ∧ calcLine symbolicOps [['7'], ['2'], ['/']]
        = Except.ok (Sym.div (Sym.num ['7']) (Sym.num ['2'])) :=
  ⟨by decide,
   calcLine_postorder symbolicOps (Tree.node Op.sub (Tree.leaf ['7']) (Tree.leaf ['2']))
     (by decide),
   calcLine_postorder symbolicOps (Tree.node Op.div (Tree.leaf ['7']) (Tree.leaf ['2']))
     (by decide)⟩

/-! ## Lemmas : infix to postfix -/

theorem rpnLoop_cons_ok (token : Str) (rest : List Str) (st st1 : RpnState)
    (h : rpnStep st token = Except.ok st1) :
    rpnLoop (token :: rest) st = rpnLoop rest st1 := by
  simp [rpnLoop, h]

theorem digit_token_facts (n : Str) (h : isdigit (charAt0 n) = true) :
    n ≠ [] ∧ n ≠ ['('] ∧ n ≠ [')'] ∧ n ≠ ['-'] ∧ isNumberToken n = true := by
  refine ⟨?_, ?_, ?_, ?_, ?_⟩
  · rintro rfl; revert h; decide
  · rintro rfl; revert h; decide
  · rintro rfl; revert h; decide
  · rintro rfl; revert h; decide
  · simp [isNumberToken, h]

theorem rpnStep_number (res : List Str) (ops : StackSHPP Str) (prev n : Str)
    (h : isdigit (charAt0 n) = true) :
    rpnStep ⟨res, ops, false, prev⟩ n = Except.ok ⟨res ++ [n], ops, false, n⟩ := by
  simp [rpnStep, h, QueueSHPP.enqueue]

theorem rpnStep_number_minus (res : List Str) (ops : StackSHPP Str) (prev n : Str)
    (h : isdigit (charAt0 n) = true) :
    rpnStep ⟨res, ops, true, prev⟩ n = Except.ok ⟨res ++ [('-' :: n)], ops, false, n⟩ := by
  simp [rpnStep, h, QueueSHPP.enqueue]

theorem rpnStep_unary (res : List Str) (ops : StackSHPP Str) (m : Bool) (prev : Str)
    (h : prev = [] ∨ prev = ['(']) :
    rpnStep ⟨res, ops, m, prev⟩ ['-'] = Except.ok ⟨res, ops, true, ['-']⟩ := by
  have hd : isdigit (charAt0 ['-']) = false := by decide
  rcases h with rfl | rfl <;> simp [rpnStep, hd]

theorem rpnStep_open (res : List Str) (ops : StackSHPP Str) (m : Bool) (prev : Str) :
    rpnStep ⟨res, ops, m, prev⟩ ['('] = Except.ok ⟨res, ['('] :: ops, m, ['(']⟩ := by
  have hd : isdigit (charAt0 ['(']) = false := by decide
  simp [rpnStep, hd, StackSHPP.push]

theorem rpnStep_close (res : List Str) (ops : StackSHPP Str) (m : Bool) (prev : Str) :
    rpnStep ⟨res, ops, m, prev⟩ [')'] =
      match closeParenLoop ops res with
      | Except.error e => Except.error e
      | Except.ok (ops0, res0) =>
        match StackSHPP.pop ops0 with
        | Except.error e => Except.error e
        | Except.ok (_, ops1) => Except.ok ⟨res0, ops1, m, [')']⟩ := by
  have hd : isdigit (charAt0 [')']) = false := by decide
  simp [rpnStep, hd]

theorem rpnStep_operator (res : List Str) (ops : StackSHPP Str) (m : Bool) (prev : Str)
    (op : Op) (h : op = Op.sub → prev ≠ [] ∧ prev ≠ ['(']) :
    rpnStep ⟨res, ops, m, prev⟩ op.token =
      Except.ok ⟨(operatorLoop op.token ops res).2,
        op.token :: (operatorLoop op.token ops res).1, m, op.token⟩ := by
  obtain ⟨h1, _, h3, h4, h5, _⟩ := op_token_facts op
  have hu : ¬ ((op.token = ['-'] ∧ prev = []) ∨ (op.token = ['-'] ∧ prev = ['('])) := by
    rintro (⟨e, hp⟩ | ⟨e, hp⟩)
    · have : op = Op.sub := by cases op <;> first | rfl | (revert e; decide)
      exact (h this).1 hp
    · have : op = Op.sub := by cases op <;> first | rfl | (revert e; decide)
      exact (h this).2 hp
  unfold rpnStep
  simp only [h1, Bool.false_eq_true, false_and, ite_false]
  rw [if_neg hu, if_neg h3, if_neg h4, if_pos h5]
  rfl

theorem operatorLoop_at_open (token : Str) (ops : StackSHPP Str) (res : List Str)
    (h : 1 ≤ opPriority (charAt0 token)) :
    operatorLoop token (['('] :: ops) res = (['('] :: ops, res) := by
  have : opPriority (charAt0 ['(']) = 0 := by decide
  simp only [operatorLoop, this]
  rw [if_neg (by omega)]

theorem operatorLoop_nil (token : Str) (res : List Str) :
    operatorLoop token [] res = ([], res) := rfl

theorem closeParenLoop_open (ops : StackSHPP Str) (res : List Str) :
    closeParenLoop (['('] :: ops) res = Except.ok (['('] :: ops, res) := by
  simp [closeParenLoop]

theorem closeParenLoop_op (op : Op) (ops : StackSHPP Str) (res : List Str) :
    closeParenLoop (op.token :: ops) res = closeParenLoop ops (res ++ [op.token]) := by
  obtain ⟨_, _, h3, _⟩ := op_token_facts op
  simp [closeParenLoop, h3, QueueSHPP.enqueue]

/-- The converter on the fully parenthesised tokens of a tree: the post-order
of the tree is appended to the queue and the operator stack is as before. -/
theorem rpnLoop_infixTokens (t : Tree)
    (h : ∀ tok ∈ t.leaves, isdigit (charAt0 tok) = true)
    (rest : List Str) (res : List Str) (ops : StackSHPP Str) (prev : Str) :
    ∃ prev1, prev1 ≠ [] ∧ prev1 ≠ ['('] ∧
      rpnLoop (t.infixTokens ++ rest) ⟨res, ops, false, prev⟩
        = rpnLoop rest ⟨res ++ t.postorder, ops, false, prev1⟩ := by
  induction t generalizing rest res ops prev with
  | leaf tok =>
    have hd := h tok (by simp [Tree.leaves])
    obtain ⟨h1, h2, _⟩ := digit_token_facts tok hd
    refine ⟨tok, h1, h2, ?_⟩
    simp only [Tree.infixTokens, Tree.postorder, List.singleton_append]
    exact rpnLoop_cons_ok _ _ _ _ (rpnStep_number res ops prev tok hd)
  | node op l r ihl ihr =>
    have hl : ∀ tok ∈ l.leaves, isdigit (charAt0 tok) = true :=
      fun tok ht => h tok (by simp [Tree.leaves, ht])
    have hr : ∀ tok ∈ r.leaves, isdigit (charAt0 tok) = true :=
      fun tok ht => h tok (by simp [Tree.leaves, ht])
    refine ⟨[')'], by decide, by decide, ?_⟩
    have e0 : (Tree.node op l r).infixTokens ++ rest
        = ['('] :: (l.infixTokens ++ (op.token :: (r.infixTokens ++ ([')'] :: rest)))) := by
      simp [Tree.infixTokens]
    have e3 : res ++ (Tree.node op l r).postorder
        = res ++ l.postorder ++ r.postorder ++ [op.token] := by
      simp [Tree.postorder]
    rw [e0, e3, rpnLoop_cons_ok _ _ _ _ (rpnStep_open res ops false prev)]
    obtain ⟨p1, hp1, hp2, e1⟩ :=
      ihl hl (op.token :: (r.infixTokens ++ [')'] :: rest)) res (['('] :: ops) ['(']
    rw [e1]
    rw [rpnLoop_cons_ok _ _ _ _
      (rpnStep_operator (res ++ l.postorder) (['('] :: ops) false p1 op (fun _ => ⟨hp1, hp2⟩))]
    rw [operatorLoop_at_open _ _ _ (op_token_facts op).2.2.2.2.2]
    obtain ⟨p2, _, _, e2⟩ :=
      ihr hr ([')'] :: rest) (res ++ l.postorder) (op.token :: ['('] :: ops) op.token
    rw [e2]
    apply rpnLoop_cons_ok
    rw [rpnStep_close, closeParenLoop_op, closeParenLoop_open]
    simp [StackSHPP.pop]

/-! ## Lemmas : the pipeline on a text made of tokens -/

theorem literalTail_chars (dot : Bool) (s : Str) (h : literalTail dot s = true) :
    ∀ c ∈ s, isdigit c = true ∨ c = '.' := by
  induction s generalizing dot with
  | nil => simp
  | cons ch s ih =>
    intro c hc
    by_cases hd : isdigit ch = true
    · simp only [literalTail, hd, ite_true] at h
      rcases List.mem_cons.1 hc with rfl | hc
      · exact Or.inl hd
      · exact ih dot h c hc
    · by_cases hp : ch = '.' ∧ dot = false
      · have h2 : literalTail true s = true := by
          simpa [literalTail, hd, hp] using h
        rcases List.mem_cons.1 hc with rfl | hc
        · exact Or.inr hp.1
        · exact ih true h2 c hc
      · simp [literalTail, hd, hp] at h

theorem literal_chars (t : Str) (h : isLiteral t = true) :
    ∀ c ∈ t, isdigit c = true ∨ c = '.' := by
  cases t with
  | nil => simp
  | cons ch s =>
    simp only [isLiteral, Bool.and_eq_true] at h
    intro c hc
    rcases List.mem_cons.1 hc with rfl | hc
    · exact Or.inl h.1
    · exact literalTail_chars false s h.2 c hc

theorem literal_digit_start (t : Str) (h : isLiteral t = true) :
    isdigit (charAt0 t) = true := by
  cases t with
  | nil => simp [isLiteral] at h
  | cons ch s =>
    simp only [isLiteral, Bool.and_eq_true] at h
    exact h.1

theorem token_chars_kept (t : Str) (h : isLiteral t = true ∨ isSymbolToken t = true) :
    ∀ c ∈ t, filterKeeps c = true ∧ (isLiteral t = true → c ≠ '(' ∧ c ≠ ')') := by
  intro c hc
  rcases h with h | h
  · rcases literal_chars t h c hc with hd | rfl
    · refine ⟨by simp [filterKeeps, hd], fun _ => ⟨?_, ?_⟩⟩
      · rintro rfl; revert hd; decide
      · rintro rfl; revert hd; decide
    · exact ⟨by decide, fun _ => by decide⟩
  · obtain ⟨d, rfl, hd⟩ := (isSymbolToken_iff t).1 h
    have hcd : c = d := by simpa using hc
    subst hcd
    refine ⟨?_, fun hl => ?_⟩
    · simp only [List.mem_cons, List.mem_singleton, List.not_mem_nil, or_false] at hd
      rcases hd with h | h | h | h | h | h | h <;> subst h <;> decide
    · have := literal_digit_start _ hl
      have h2 := (symbol_char_facts c hd).1
      simp only [charAt0, List.headD_cons] at this
      rw [h2] at this; cases this

/-- A text written from literals, operators and parentheses goes through the
sanitizer unchanged. -/
theorem filterExpression_flatten (ts : List Str)
    (h : ∀ t ∈ ts, isLiteral t = true ∨ isSymbolToken t = true) :
    filterExpression ts.flatten = ts.flatten := by
  rw [filterExpression_eq_filter, List.filter_eq_self]
  intro c hc
  obtain ⟨t, ht, hct⟩ := List.mem_flatten.1 hc
  exact (token_chars_kept t (h t ht) c hct).1

theorem checkLoop_literal (t : Str) (h : isLiteral t = true) (rest : Str)
    (st : Bool × StackSHPP Char) :
    checkLoop (t ++ rest) st = checkLoop rest st := by
  have key : ∀ s : Str, (∀ c ∈ s, c ≠ '(' ∧ c ≠ ')') →
      ∀ st : Bool × StackSHPP Char, checkLoop (s ++ rest) st = checkLoop rest st := by
    intro s
    induction s with
    | nil => intro _ st; rfl
    | cons ch s ih =>
      intro hs st
      obtain ⟨h1, h2⟩ := hs ch (by simp)
      rw [List.cons_append, checkLoop, checkStep_other st.1 st.2 ch h1 h2]
      exact ih (fun c hc => hs c (List.mem_cons_of_mem _ hc)) st
  exact key t (fun c hc => (token_chars_kept t (Or.inl h) c hc).2 h) st

theorem checkLoop_op (op : Op) (rest : Str) (st : Bool × StackSHPP Char) :
    checkLoop (op.symbol :: rest) st = checkLoop rest st := by
  rw [checkLoop, checkStep_other st.1 st.2 op.symbol (by cases op <;> decide)
    (by cases op <;> decide)]

theorem checkLoop_open (rest : Str) (b : Bool) (stk : StackSHPP Char) :
    checkLoop ('(' :: rest) (b, stk) = checkLoop rest (b, '(' :: stk) := by
  rw [checkLoop, checkStep_open]

theorem checkLoop_close (rest : Str) (b : Bool) (x : Char) (stk : StackSHPP Char) :
    checkLoop (')' :: rest) (b, x :: stk) = checkLoop rest (b, stk) := by
  rw [checkLoop, checkStep_close_cons]

/-- A number literal in front of the input is one token, when the input ends
after it or goes on with an operator or a parenthesis. -/
theorem scanTokens_literal_then (t : Str) (ht : isLiteral t = true) (rest : Str)
    (hr : ∀ c ∈ rest.head?, c ∈ ['+', '-', '/', '*', '^', '(', ')']) :
    scanTokens none (t ++ rest) = t :: scanTokens none rest := by
  obtain ⟨d1, e⟩ := scanTokens_literal t ht rest
  rw [e]
  cases rest with
  | nil => simp [scanTokens]
  | cons c r => exact scanTokens_some_symbol _ _ _ _ (hr c (by simp))

theorem scanTokens_op (op : Op) (rest : Str) :
    scanTokens none (op.symbol :: rest) = op.token :: scanTokens none rest :=
  scanTokens_none_symbol _ _ (by cases op <;> decide)

/-- The pipeline of `main` on a text that the sanitizer keeps, the balance
checker accepts and the scanner splits into `ts`. -/
theorem evaluate_of_tokens {α : Type} (D : DoubleOps α) (text : Str) (ts : List Str)
    (h1 : filterExpression text = text) (h2 : checkParenthesis text = true)
    (h3 : TokenScanner.tokens text = ts) :
    evaluate D text =
      match rpnOfTokens ts with
      | Except.error e => Except.error e
      | Except.ok q => calcLine D q := by
  simp only [evaluate, h1, h2, ite_true, toReversePolishNotation, h3]

/-! ### Fully parenthesised trees -/

theorem tree_tokens (t : Tree) (h : ∀ tok ∈ t.leaves, isLiteral tok = true) :
    ∀ x ∈ t.infixTokens, isLiteral x = true ∨ isSymbolToken x = true := by
  induction t with
  | leaf tok => intro x hx; simp [Tree.infixTokens] at hx; subst hx; exact Or.inl (h _ (by simp [Tree.leaves]))
  | node op l r ihl ihr =>
    intro x hx
    simp only [Tree.infixTokens, List.mem_append, List.mem_singleton] at hx
    rcases hx with (((hx | hx) | hx) | hx) | hx
    · subst hx; exact Or.inr (by decide)
    · exact ihl (fun tok ht => h tok (by simp [Tree.leaves, ht])) x hx
    · subst hx; exact Or.inr (by cases op <;> decide)
    · exact ihr (fun tok ht => h tok (by simp [Tree.leaves, ht])) x hx
    · subst hx; exact Or.inr (by decide)

theorem tree_text_node (op : Op) (l r : Tree) (rest : Str) :
    (Tree.node op l r).infixTokens.flatten ++ rest
      = '(' :: (l.infixTokens.flatten ++ (op.symbol ::
          (r.infixTokens.flatten ++ (')' :: rest)))) := by
  simp [Tree.infixTokens, Op.token]

theorem scanTokens_tree (t : Tree) (h : ∀ tok ∈ t.leaves, isLiteral tok = true)
    (rest : Str) (hr : ∀ c ∈ rest.head?, c ∈ ['+', '-', '/', '*', '^', '(', ')']) :
    scanTokens none (t.infixTokens.flatten ++ rest) = t.infixTokens ++ scanTokens none rest := by
  induction t generalizing rest with
  | leaf tok =>
    simp only [Tree.infixTokens, List.flatten_cons, List.flatten_nil, List.append_nil,
      List.singleton_append]
    exact scanTokens_literal_then tok (h tok (by simp [Tree.leaves])) rest hr
  | node op l r ihl ihr =>
    rw [tree_text_node, scanTokens_none_symbol _ _ (by decide),
      ihl (fun tok ht => h tok (by simp [Tree.leaves, ht])) _
        (by intro c hc; simp at hc; subst hc; cases op <;> decide),
      scanTokens_op,
      ihr (fun tok ht => h tok (by simp [Tree.leaves, ht])) _
        (by intro c hc; simp at hc; subst hc; decide),
      scanTokens_none_symbol _ _ (by decide)]
    simp [Tree.infixTokens]

theorem checkLoop_tree (t : Tree) (h : ∀ tok ∈ t.leaves, isLiteral tok = true)
    (rest : Str) (b : Bool) (stk : StackSHPP Char) :
    checkLoop (t.infixTokens.flatten ++ rest) (b, stk) = checkLoop rest (b, stk) := by
  induction t generalizing rest stk with
  | leaf tok =>
    simp only [Tree.infixTokens, List.flatten_cons, List.flatten_nil, List.append_nil]
    exact checkLoop_literal tok (h tok (by simp [Tree.leaves])) rest _
  | node op l r ihl ihr =>
    rw [tree_text_node, checkLoop_open,
      ihl (fun tok ht => h tok (by simp [Tree.leaves, ht])), checkLoop_op,
      ihr (fun tok ht => h tok (by simp [Tree.leaves, ht])), checkLoop_close]

/-- C3: parentheses override precedence. For every expression tree whose leaves
are unsigned number literals, `toReversePolishNotation` on the fully
parenthesised infix form (every inner node written `(` left op right `)`), as a
token sequence and as a text, returns exactly the post-order traversal of the
tree; no parenthesis token is in the output; the pipeline returns the value of
the tree. Also `(2+3)*4` gives `[2, 3, +, 4, *]` and evaluates to
`(2 + 3) * 4`. -/
theorem toReversePolishNotation_parenthesised (t : Tree)
    (h : ∀ tok ∈ t.leaves, isLiteral tok = true) :
    rpnOfTokens t.infixTokens = Except.ok t.postorder
    ∧ toReversePolishNotation t.infixTokens.flatten = Except.ok t.postorder
    ∧ (∀ x ∈ t.postorder, x ≠ ['('] ∧ x ≠ [')'])
    ∧ (∀ (α : Type) (D : DoubleOps α),
        evaluate D t.infixTokens.flatten = Except.ok (t.value D))
    ∧ toReversePolishNotation "(2+3)*4".toList
        = Except.ok [['2'], ['3'], ['+'], ['4'], ['*']]
    ∧ (∀ (α : Type) (D : DoubleOps α), evaluate D "(2+3)*4".toList
        = Except.ok (D.mul (D.add (D.stod ['2']) (D.stod ['3'])) (D.stod ['4']))) := by
  have hd : ∀ tok ∈ t.leaves, isdigit (charAt0 tok) = true :=
    fun tok ht => literal_digit_start tok (h tok ht)
  have hrpn : rpnOfTokens t.infixTokens = Except.ok t.postorder := by
    obtain ⟨p1, _, _, e⟩ := rpnLoop_infixTokens t hd [] [] [] []
    rw [List.append_nil] at e
    simp [rpnOfTokens, e, rpnLoop, drainLoop]
  have htok : TokenScanner.tokens t.infixTokens.flatten = t.infixTokens := by
    have := scanTokens_tree t h [] (by simp)
    simpa [TokenScanner.tokens, scanTokens] using this
  have hchk : checkParenthesis t.infixTokens.flatten = true := by
    have := checkLoop_tree t h [] true []
    rw [List.append_nil] at this
    simp [checkParenthesis, this, checkLoop]
  refine ⟨hrpn, ?_, ?_, ?_, rfl, fun _ _ => rfl⟩
  · rw [toReversePolishNotation, htok, hrpn]
  · clear hrpn htok hchk h
    induction t with
    | leaf tok =>
      intro x hx
      simp only [Tree.postorder, List.mem_singleton] at hx
      subst hx
      obtain ⟨_, h2, h3, _⟩ := digit_token_facts x (hd x (by simp [Tree.leaves]))
      exact ⟨h2, h3⟩
    | node op l r ihl ihr =>
      intro x hx
      simp only [Tree.postorder, List.mem_append, List.mem_singleton] at hx
      rcases hx with (hx | hx) | hx
      · exact ihl (fun tok ht => hd tok (by simp [Tree.leaves, ht])) x hx
      · exact ihr (fun tok ht => hd tok (by simp [Tree.leaves, ht])) x hx
      · subst hx; exact ⟨(op_token_facts op).2.2.1, (op_token_facts op).2.2.2.1⟩
  · intro α D
    rw [evaluate_of_tokens D _ _ (filterExpression_flatten _ (tree_tokens t h)) hchk htok, hrpn]
    exact calcLine_tree D t
      (fun tok ht => (digit_token_facts tok (hd tok ht)).2.2.2.2)

/-- C3, at the tree of `((2+3)*4)`: the output is `[2, 3, +, 4, *]`. -/
theorem toReversePolishNotation_parenthesised_witness :
    toReversePolishNotation "((2+3)*4)".toList
      = Except.ok [['2'], ['3'], ['+'], ['4'], ['*']]
    ∧ evaluate symbolicOps "((2+3)*4)".toList
      = Except.ok (Sym.mul (Sym.add (Sym.num ['2']) (Sym.num ['3'])) (Sym.num ['4'])) :=
  have h := toReversePolishNotation_parenthesised
    (Tree.node Op.mul (Tree.node Op.add (Tree.leaf ['2']) (Tree.leaf ['3'])) (Tree.leaf ['4']))
    (by decide)
  ⟨h.2.1, h.2.2.2.1 Sym symbolicOps⟩

/-! ### Operator sequences without parentheses -/

theorem numberValue_literal {α : Type} (D : DoubleOps α) (a : Str)
    (h : isLiteral a = true) : numberValue D a = D.stod a := by
  have hd := literal_digit_start a h
  have : ¬ (a.length > 1 ∧ charAt0 a = '-') := by
    rintro ⟨_, e⟩
    rw [e] at hd; revert hd; decide
  rw [numberValue, if_neg this]

theorem isLiteral_op_token (op : Op) : isLiteral op.token = false := by
  cases op <;> decide

theorem checkParenthesis_of_checkLoop (text : Str)
    (h : checkLoop text (true, []) = (true, [])) : checkParenthesis text = true := by
  simp [checkParenthesis, h]

/-- The converter on `a op1 b op2 c`. -/
theorem rpnOfTokens_two_ops (a b c : Str) (op1 op2 : Op)
    (ha : isdigit (charAt0 a) = true) (hb : isdigit (charAt0 b) = true)
    (hc : isdigit (charAt0 c) = true) :
    rpnOfTokens [a, op1.token, b, op2.token, c] =
      Except.ok (if opPriority op1.symbol ≥ opPriority op2.symbol
        then [a, b, op1.token, c, op2.token] else [a, b, c, op2.token, op1.token]) := by
  obtain ⟨a1, a2, _⟩ := digit_token_facts a ha
  obtain ⟨b1, b2, _⟩ := digit_token_facts b hb
  unfold rpnOfTokens
  rw [rpnLoop_cons_ok _ _ _ _ (rpnStep_number [] [] [] a ha),
    rpnLoop_cons_ok _ _ _ _ (rpnStep_operator _ _ false a op1 (fun _ => ⟨a1, a2⟩)),
    operatorLoop_nil,
    rpnLoop_cons_ok _ _ _ _ (rpnStep_number _ _ _ b hb),
    rpnLoop_cons_ok _ _ _ _ (rpnStep_operator _ _ false b op2 (fun _ => ⟨b1, b2⟩))]
  have hop : operatorLoop op2.token [op1.token] ([] ++ [a] ++ [b]) =
      if opPriority op1.symbol ≥ opPriority op2.symbol
      then ([], [a, b, op1.token]) else ([op1.token], [a, b]) := by
    by_cases hp : opPriority op1.symbol ≥ opPriority op2.symbol
    · rw [if_pos hp, operatorLoop, if_pos (by exact hp)]
      rfl
    · rw [if_neg hp, operatorLoop, if_neg (by exact hp)]
      rfl
  rw [hop]
  by_cases hp : opPriority op1.symbol ≥ opPriority op2.symbol
  · simp only [if_pos hp]
    rw [rpnLoop_cons_ok _ _ _ _ (rpnStep_number _ _ _ c hc)]
    rfl
  · simp only [if_neg hp]
    rw [rpnLoop_cons_ok _ _ _ _ (rpnStep_number _ _ _ c hc)]
    rfl

/-- C2: on `a op1 b op2 c` with unsigned number literals `a`, `b`, `c`,
`toReversePolishNotation` gives `[a, b, op1, c, op2]` when
`opPriority(op1) >= opPriority(op2)` and `[a, b, c, op2, op1]` otherwise, so
that the pipeline computes `(a op1 b) op2 c` in the first case and
`a op1 (b op2 c)` in the second. Operators of equal priority, `^` included,
therefore group from the left: `2+3*4` is `2 + 3 * 4` and `2^3^2` is
`pow(pow(2, 3), 2)`, not `pow(2, pow(3, 2))`. -/
theorem toReversePolishNotation_two_ops (a b c : Str) (op1 op2 : Op)
    (ha : isLiteral a = true) (hb : isLiteral b = true) (hc : isLiteral c = true) :
    (opPriority op1.symbol ≥ opPriority op2.symbol →
      rpnOfTokens [a, op1.token, b, op2.token, c]
        = Except.ok [a, b, op1.token, c, op2.token]
      ∧ toReversePolishNotation (a ++ op1.token ++ b ++ op2.token ++ c)
        = Except.ok [a, b, op1.token, c, op2.token]
      ∧ ∀ (α : Type) (D : DoubleOps α),
        evaluate D (a ++ op1.token ++ b ++ op2.token ++ c) = Except.ok
          (doOperation D (doOperation D (D.stod a) (D.stod b) op1.token) (D.stod c)
            op2.token))
    ∧ (opPriority op1.symbol < opPriority op2.symbol →
      rpnOfTokens [a, op1.token, b, op2.token, c]
        = Except.ok [a, b, c, op2.token, op1.token]
      ∧ toReversePolishNotation (a ++ op1.token ++ b ++ op2.token ++ c)
        = Except.ok [a, b, c, op2.token, op1.token]
      ∧ ∀ (α : Type) (D : DoubleOps α),
        evaluate D (a ++ op1.token ++ b ++ op2.token ++ c) = Except.ok
          (doOperation D (D.stod a) (doOperation D (D.stod b) (D.stod c) op2.token)
            op1.token))
    ∧ (∀ (α : Type) (D : DoubleOps α), evaluate D "2+3*4".toList
        = Except.ok (D.add (D.stod ['2']) (D.mul (D.stod ['3']) (D.stod ['4']))))
    ∧ (∀ (α : Type) (D : DoubleOps α), evaluate D "2^3^2".toList
        = Except.ok (D.pow (D.pow (D.stod ['2']) (D.stod ['3'])) (D.stod ['2'])))
    ∧ evaluate symbolicOps "2^3^2".toList
        ≠ Except.ok (Sym.pow (Sym.num ['2']) (Sym.pow (Sym.num ['3']) (Sym.num ['2']))) := by
  have da := literal_digit_start a ha
  have db := literal_digit_start b hb
  have dc := literal_digit_start c hc
  have htext : a ++ op1.token ++ b ++ op2.token ++ c
      = [a, op1.token, b, op2.token, c].flatten := by simp
  have hmem : ∀ t ∈ [a, op1.token, b, op2.token, c],
      isLiteral t = true ∨ isSymbolToken t = true := by
    intro t ht
    simp only [List.mem_cons, List.mem_singleton, List.not_mem_nil, or_false] at ht
    rcases ht with rfl | rfl | rfl | rfl | rfl
    · exact Or.inl ha
    · exact Or.inr (by cases op1 <;> decide)
    · exact Or.inl hb
    · exact Or.inr (by cases op2 <;> decide)
    · exact Or.inl hc
  have hsep : separated [a, op1.token, b, op2.token, c] = true := by
    simp [separated, isLiteral_op_token]
  have htok := tokens_flatten _ hmem hsep
  have hflt := filterExpression_flatten _ hmem
  have hchk : checkParenthesis [a, op1.token, b, op2.token, c].flatten = true := by
    apply checkParenthesis_of_checkLoop
    have e : [a, op1.token, b, op2.token, c].flatten
        = a ++ (op1.symbol :: (b ++ (op2.symbol :: (c ++ [])))) := by
      simp [Op.token]
    rw [e, checkLoop_literal a ha, checkLoop_op, checkLoop_literal b hb, checkLoop_op,
      checkLoop_literal c hc]
    rfl
  have hrpn := rpnOfTokens_two_ops a b c op1 op2 da db dc
  have hnum : ∀ x ∈ [a, b, c], isNumberToken x = true := by
    intro x hx
    simp only [List.mem_cons, List.mem_singleton, List.not_mem_nil, or_false] at hx
    rcases hx with rfl | rfl | rfl
    · exact (digit_token_facts _ da).2.2.2.2
    · exact (digit_token_facts _ db).2.2.2.2
    · exact (digit_token_facts _ dc).2.2.2.2
  have hne : evaluate symbolicOps "2^3^2".toList
      ≠ Except.ok (Sym.pow (Sym.num ['2']) (Sym.pow (Sym.num ['3']) (Sym.num ['2']))) := by
    intro h
    have h2 : evaluate symbolicOps "2^3^2".toList
        = Except.ok (Sym.pow (Sym.pow (Sym.num ['2']) (Sym.num ['3'])) (Sym.num ['2'])) := rfl
    rw [h2] at h
    cases h
  refine ⟨fun hp => ?_, fun hp => ?_, fun _ _ => rfl, fun _ _ => rfl, hne⟩
  · rw [if_pos hp] at hrpn
    refine ⟨hrpn, ?_, ?_⟩
    · rw [htext, toReversePolishNotation, htok, hrpn]
    · intro α D
      rw [htext, evaluate_of_tokens D _ _ hflt hchk htok, hrpn]
      have := calcLine_tree D
        (Tree.node op2 (Tree.node op1 (Tree.leaf a) (Tree.leaf b)) (Tree.leaf c))
        (by simpa [Tree.leaves] using hnum)
      simpa [Tree.postorder, Tree.value, numberValue_literal, ha, hb, hc] using this
  · rw [if_neg (by omega)] at hrpn
    refine ⟨hrpn, ?_, ?_⟩
    · rw [htext, toReversePolishNotation, htok, hrpn]
    · intro α D
      rw [htext, evaluate_of_tokens D _ _ hflt hchk htok, hrpn]
      have := calcLine_tree D
        (Tree.node op1 (Tree.leaf a) (Tree.node op2 (Tree.leaf b) (Tree.leaf c)))
        (by simpa [Tree.leaves] using hnum)
      simpa [Tree.postorder, Tree.value, numberValue_literal, ha, hb, hc] using this

/-- C2, at `7-2-1` and at `7-2*3`: equal priorities group from the left, a
higher priority on the right groups to the right. -/
theorem toReversePolishNotation_two_ops_witness :
    evaluate symbolicOps "7-2-1".toList
      = Except.ok (Sym.sub (Sym.sub (Sym.num ['7']) (Sym.num ['2'])) (Sym.num ['1']))
    ∧ evaluate symbolicOps "7-2*3".toList
      = Except.ok (Sym.sub (Sym.num ['7']) (Sym.mul (Sym.num ['2']) (Sym.num ['3']))) :=
  ⟨((toReversePolishNotation_two_ops ['7'] ['2'] ['1'] Op.sub Op.sub
      (by decide) (by decide) (by decide)).1 (by decide)).2.2 Sym symbolicOps,
   ((toReversePolishNotation_two_ops ['7'] ['2'] ['3'] Op.sub Op.mul
      (by decide) (by decide) (by decide)).2.1 (by decide)).2.2 Sym symbolicOps⟩

/-! ### Unary minus -/

theorem numberValue_minus {α : Type} (D : DoubleOps α) (n : Str) (h : n ≠ []) :
    numberValue D ('-' :: n) = D.neg (D.stod n) := by
  have : ('-' :: n).length > 1 ∧ charAt0 ('-' :: n) = '-' := by
    refine ⟨?_, rfl⟩
    cases n with
    | nil => exact absurd rfl h
    | cons c r => simp
  rw [numberValue, if_pos this]
  rfl

theorem isNumberToken_minus (n : Str) (h : n ≠ []) : isNumberToken ('-' :: n) = true := by
  cases n with
  | nil => exact absurd rfl h
  | cons c r => simp [isNumberToken, charAt0]

/-- The converter on `- n op m`. -/
theorem rpnOfTokens_leading_minus (n m : Str) (op : Op)
    (hn : isdigit (charAt0 n) = true) (hm : isdigit (charAt0 m) = true) :
    rpnOfTokens [['-'], n, op.token, m] = Except.ok [('-' :: n), m, op.token] := by
  obtain ⟨n1, n2, _⟩ := digit_token_facts n hn
  unfold rpnOfTokens
  rw [rpnLoop_cons_ok _ _ _ _ (rpnStep_unary [] [] false [] (Or.inl rfl)),
    rpnLoop_cons_ok _ _ _ _ (rpnStep_number_minus _ _ _ n hn),
    rpnLoop_cons_ok _ _ _ _ (rpnStep_operator _ _ false n op (fun _ => ⟨n1, n2⟩)),
    operatorLoop_nil,
    rpnLoop_cons_ok _ _ _ _ (rpnStep_number _ _ _ m hm)]
  rfl

/-- C8: a leading unary minus negates the number after it, and only that one.
For unsigned number literals `n`, `m` and a binary operator `op`, the converter
turns `- n op m` into `[-n, m, op]` and the pipeline returns
`doOperation(-n, m, op)`; `-2+3` is `(-2) + 3`. -/
theorem toReversePolishNotation_leading_minus (n m : Str) (op : Op)
    (hn : isLiteral n = true) (hm : isLiteral m = true) :
    rpnOfTokens [['-'], n, op.token, m] = Except.ok [('-' :: n), m, op.token]
    ∧ toReversePolishNotation (['-'] ++ n ++ op.token ++ m)
        = Except.ok [('-' :: n), m, op.token]
    ∧ (∀ (α : Type) (D : DoubleOps α), evaluate D (['-'] ++ n ++ op.token ++ m)
        = Except.ok (doOperation D (D.neg (D.stod n)) (D.stod m) op.token))
    ∧ (∀ (α : Type) (D : DoubleOps α), evaluate D "-2+3".toList
        = Except.ok (D.add (D.neg (D.stod ['2'])) (D.stod ['3']))) := by
  have dn := literal_digit_start n hn
  have dm := literal_digit_start m hm
  have n0 := (digit_token_facts n dn).1
  have htext : ['-'] ++ n ++ op.token ++ m = [['-'], n, op.token, m].flatten := by simp
  have hmem : ∀ t ∈ [['-'], n, op.token, m],
      isLiteral t = true ∨ isSymbolToken t = true := by
    intro t ht
    simp only [List.mem_cons, List.mem_singleton, List.not_mem_nil, or_false] at ht
    rcases ht with rfl | rfl | rfl | rfl
    · exact Or.inr (by decide)
    · exact Or.inl hn
    · exact Or.inr (by cases op <;> decide)
    · exact Or.inl hm
  have hsep : separated [['-'], n, op.token, m] = true := by
    have : isLiteral ['-'] = false := by decide
    simp [separated, isLiteral_op_token, this]
  have htok := tokens_flatten _ hmem hsep
  have hflt := filterExpression_flatten _ hmem
  have hchk : checkParenthesis [['-'], n, op.token, m].flatten = true := by
    apply checkParenthesis_of_checkLoop
    have e : [['-'], n, op.token, m].flatten
        = Op.sub.symbol :: (n ++ (op.symbol :: (m ++ []))) := by
      simp [Op.token, Op.symbol]
    rw [e, checkLoop_op, checkLoop_literal n hn, checkLoop_op, checkLoop_literal m hm]
    rfl
  have hrpn := rpnOfTokens_leading_minus n m op dn dm
  refine ⟨hrpn, ?_, ?_, fun _ _ => rfl⟩
  · rw [htext, toReversePolishNotation, htok, hrpn]
  · intro α D
    rw [htext, evaluate_of_tokens D _ _ hflt hchk htok, hrpn]
    have := calcLine_tree D
      (Tree.node op (Tree.leaf ('-' :: n)) (Tree.leaf m))
      (by
        intro x hx
        simp only [Tree.leaves, List.mem_append, List.mem_singleton] at hx
        rcases hx with rfl | rfl
        · exact isNumberToken_minus n n0
        · exact (digit_token_facts _ dm).2.2.2.2)
    simpa [Tree.postorder, Tree.value, numberValue_literal, hm, numberValue_minus, n0]
      using this

/-- C8, at `-2*3`: the output is `[-2, 3, *]` and the value `(-2) * 3`. -/
theorem toReversePolishNotation_leading_minus_witness :
    toReversePolishNotation "-2*3".toList = Except.ok [['-', '2'], ['3'], ['*']]
    ∧ evaluate symbolicOps "-2*3".toList
      = Except.ok (Sym.mul (Sym.neg (Sym.num ['2'])) (Sym.num ['3'])) :=
  have h := toReversePolishNotation_leading_minus ['2'] ['3'] Op.mul (by decide) (by decide)
  ⟨h.2.1, h.2.2.1 Sym symbolicOps⟩

/-- C9: the code at the failing input `-(2+3)`. The claim has the sign dropped
without effect, that is the postfix sequence `[2, 3, +]` of `(2+3)` and the
value `2 + 3`. The code returns `[-2, 3, +]` and the value `(-2) + 3`: the very
sequence it returns for `-2+3`, the sign landing on the first number inside the
parentheses. -/
theorem minus_before_paren_failing_input :
    toReversePolishNotation "-(2+3)".toList = Except.ok [['-', '2'], ['3'], ['+']]
    ∧ toReversePolishNotation "(2+3)".toList = Except.ok [['2'], ['3'], ['+']]
    ∧ toReversePolishNotation "-(2+3)".toList ≠ toReversePolishNotation "(2+3)".toList
    ∧ toReversePolishNotation "-(2+3)".toList = toReversePolishNotation "-2+3".toList
    ∧ evaluate symbolicOps "-(2+3)".toList
      = Except.ok (Sym.add (Sym.neg (Sym.num ['2'])) (Sym.num ['3']))
    ∧ evaluate symbolicOps "(2+3)".toList
      = Except.ok (Sym.add (Sym.num ['2']) (Sym.num ['3']))
    ∧ evaluate symbolicOps "-(2+3)".toList ≠ evaluate symbolicOps "(2+3)".toList := by
  have h1 : toReversePolishNotation "-(2+3)".toList
      = Except.ok [['-', '2'], ['3'], ['+']] := rfl
  have h2 : toReversePolishNotation "(2+3)".toList = Except.ok [['2'], ['3'], ['+']] := rfl
  have h3 : evaluate symbolicOps "-(2+3)".toList
      = Except.ok (Sym.add (Sym.neg (Sym.num ['2'])) (Sym.num ['3'])) := rfl
  have h4 : evaluate symbolicOps "(2+3)".toList
      = Except.ok (Sym.add (Sym.num ['2']) (Sym.num ['3'])) := rfl
  refine ⟨h1, h2, ?_, rfl, h3, h4, ?_⟩
  · intro h
    rw [h1, h2] at h
    cases h
  · intro h
    rw [h3, h4] at h
    cases h

/-- The extent of the defect shown by `-(2+3)`: `minusTrigger` is cleared only
where a number is enqueued (Calculator.cpp:139), so a `(` read while the flag is
set leaves it set. For every number token `n` and every continuation the scan of
`- ( n ...` reaches the state that the scan of `( - n ...` reaches: the sign
meant for the parenthesised operand is spent on `n` alone. -/
theorem minusTrigger_leaks_across_paren (n : Str) (rest : List Str)
    (hn : isdigit (charAt0 n) = true) :
    rpnLoop ([['-'], ['('], n] ++ rest) ⟨[], [], false, []⟩
        = rpnLoop rest ⟨[('-' :: n)], [['(']], false, n⟩
    ∧ rpnLoop ([['('], ['-'], n] ++ rest) ⟨[], [], false, []⟩
        = rpnLoop rest ⟨[('-' :: n)], [['(']], false, n⟩
    ∧ rpnOfTokens ([['-'], ['('], n] ++ rest)
        = rpnOfTokens ([['('], ['-'], n] ++ rest) := by
  have e1 : rpnLoop ([['-'], ['('], n] ++ rest) ⟨[], [], false, []⟩
      = rpnLoop rest ⟨[('-' :: n)], [['(']], false, n⟩ := by
    simp only [List.cons_append, List.nil_append]
    rw [rpnLoop_cons_ok _ _ _ _ (rpnStep_unary [] [] false [] (Or.inl rfl)),
      rpnLoop_cons_ok _ _ _ _ (rpnStep_open _ _ _ _),
      rpnLoop_cons_ok _ _ _ _ (rpnStep_number_minus _ _ _ n hn)]
    rfl
  have e2 : rpnLoop ([['('], ['-'], n] ++ rest) ⟨[], [], false, []⟩
      = rpnLoop rest ⟨[('-' :: n)], [['(']], false, n⟩ := by
    simp only [List.cons_append, List.nil_append]
    rw [rpnLoop_cons_ok _ _ _ _ (rpnStep_open _ _ _ _),
      rpnLoop_cons_ok _ _ _ _ (rpnStep_unary _ _ _ _ (Or.inr rfl)),
      rpnLoop_cons_ok _ _ _ _ (rpnStep_number_minus _ _ _ n hn)]
    rfl
  refine ⟨e1, e2, ?_⟩
  unfold rpnOfTokens
  rw [e1, e2]

/-! ### Operator without left operand -/

/-- C10: an operator with no left operand is rejected. For every unsigned
number literal `n` and every operator `op` other than `-`, the text `op n`
passes the balance check and is converted to `[n, op]`, on which `calcLine`
fails with a stack underflow; so does the whole pipeline. `+3` is such a text. -/
theorem operator_without_left_operand (n : Str) (op : Op)
    (hn : isLiteral n = true) (hop : op ≠ Op.sub) :
    checkParenthesis (op.token ++ n) = true
    ∧ toReversePolishNotation (op.token ++ n) = Except.ok [n, op.token]
    ∧ (∀ (α : Type) (D : DoubleOps α),
        calcLine D [n, op.token] = Except.error EvaluationError.StackUnderflow
        ∧ evaluate D (op.token ++ n) = Except.error EvaluationError.StackUnderflow)
    ∧ (∀ (α : Type) (D : DoubleOps α),
        evaluate D "+3".toList = Except.error EvaluationError.StackUnderflow) := by
  have dn := literal_digit_start n hn
  have htext : op.token ++ n = [op.token, n].flatten := by simp
  have hmem : ∀ t ∈ [op.token, n], isLiteral t = true ∨ isSymbolToken t = true := by
    intro t ht
    simp only [List.mem_cons, List.mem_singleton, List.not_mem_nil, or_false] at ht
    rcases ht with rfl | rfl
    · exact Or.inr (by cases op <;> decide)
    · exact Or.inl hn
  have hsep : separated [op.token, n] = true := by
    simp [separated, isLiteral_op_token]
  have htok := tokens_flatten _ hmem hsep
  have hflt := filterExpression_flatten _ hmem
  have hchk : checkParenthesis [op.token, n].flatten = true := by
    apply checkParenthesis_of_checkLoop
    have e : [op.token, n].flatten = op.symbol :: (n ++ []) := by simp [Op.token]
    rw [e, checkLoop_op, checkLoop_literal n hn]
    rfl
  have hrpn : rpnOfTokens [op.token, n] = Except.ok [n, op.token] := by
    unfold rpnOfTokens
    rw [rpnLoop_cons_ok _ _ _ _ (rpnStep_operator [] [] false [] op (fun h => absurd h hop)),
      operatorLoop_nil,
      rpnLoop_cons_ok _ _ _ _ (rpnStep_number _ _ _ n dn)]
    rfl
  have hcalc : ∀ (α : Type) (D : DoubleOps α),
      calcLine D [n, op.token] = Except.error EvaluationError.StackUnderflow := by
    intro α D
    obtain ⟨h1, h2, _⟩ := op_token_facts op
    have h3 : ¬ (op.token.length > 1 ∧ charAt0 op.token = '-') := fun h => h2 h.1
    have h4 : ¬ (op.token.length > 1 ∧ isdigit (charAt0 op.token) = true) := fun h => h2 h.1
    rw [calcLine, calcLoop_number D n _ _ (digit_token_facts n dn).2.2.2.2, calcLoop,
      if_neg h3, if_neg h4]
    simp [h1, StackSHPP.pop]
  refine ⟨by rw [htext]; exact hchk, ?_, fun α D => ⟨hcalc α D, ?_⟩, fun _ _ => rfl⟩
  · rw [htext, toReversePolishNotation, htok, hrpn]
  · rw [htext, evaluate_of_tokens D _ _ hflt hchk htok, hrpn]
    exact hcalc α D

/-- C10, at `*12.5`: converted to `[12.5, *]`, then a stack underflow. -/
theorem operator_without_left_operand_witness :
    toReversePolishNotation "*12.5".toList = Except.ok ["12.5".toList, ['*']]
    ∧ evaluate symbolicOps "*12.5".toList = Except.error EvaluationError.StackUnderflow :=
  have h := operator_without_left_operand "12.5".toList Op.mul (by decide) (by decide)
  ⟨h.2.1, (h.2.2.1 Sym symbolicOps).2⟩

/-! ### Well-formed expressions -/

theorem depthRun_append (a b : List Str) (d : Nat) :
    depthRun (a ++ b) d = (depthRun a d).bind (depthRun b) := by
  induction a generalizing d with
  | nil => rfl
  | cons x a ih =>
    simp only [List.cons_append, depthRun]
    by_cases h1 : isNumberToken x = true
    · simp [h1, ih]
    · by_cases h2 : 2 ≤ d
      · simp [h1, h2, ih]
      · simp [h1, h2]

theorem depthRun_snoc_number (res : List Str) (n : Str) (k : Nat)
    (h : depthRun res 0 = some k) (hn : isNumberToken n = true) :
    depthRun (res ++ [n]) 0 = some (k + 1) := by
  simp [depthRun_append, h, depthRun, hn]

theorem isNumberToken_op (op : Op) : isNumberToken op.token = false := by
  cases op <;> decide

theorem depthRun_snoc_op (res : List Str) (op : Op) (k : Nat)
    (h : depthRun res 0 = some (k + 2)) :
    depthRun (res ++ [op.token]) 0 = some (k + 1) := by
  simp [depthRun_append, h, depthRun, isNumberToken_op]

/-- A postfix sequence that passes the depth counter is evaluated by the loop
of `calcLine` without error, and the counter is the height of the stack. -/
theorem calcLoop_of_depthRun {α : Type} (D : DoubleOps α) (line : List Str)
    (numbers : StackSHPP α) (d : Nat) (h : depthRun line numbers.length = some d) :
    ∃ stk : StackSHPP α, calcLoop D line numbers = Except.ok stk ∧ stk.length = d := by
  induction line generalizing numbers with
  | nil =>
    simp only [depthRun, Option.some.injEq] at h
    exact ⟨numbers, rfl, h⟩
  | cons tmp line ih =>
    by_cases hn : isNumberToken tmp = true
    · rw [calcLoop_number D tmp line numbers hn]
      apply ih
      simpa [depthRun, hn] using h
    · have hn1 : ¬ (tmp.length > 1 ∧ charAt0 tmp = '-') := by
        intro hc; apply hn; simp [isNumberToken, hc.1, hc.2]
      have hn2 : ¬ (isdigit (charAt0 tmp) = true) := by
        intro hc; apply hn; simp [isNumberToken, hc]
      have hn3 : ¬ (tmp.length > 1 ∧ isdigit (charAt0 tmp) = true) := fun hc => hn2 hc.2
      by_cases h2 : 2 ≤ numbers.length
      · match numbers, h2 with
        | o2 :: o1 :: numbers2, _ =>
          rw [calcLoop, if_neg hn1, if_neg hn3, if_neg hn2]
          simp only [StackSHPP.pop, StackSHPP.push]
          apply ih
          simpa [depthRun, hn] using h
      · simp [depthRun, hn, h2] at h

theorem drainLoop_eq (ops : StackSHPP Str) (res : List Str) :
    drainLoop ops res = res ++ ops := by
  induction ops generalizing res with
  | nil => simp [drainLoop]
  | cons t ops ih => simp [drainLoop, ih, QueueSHPP.enqueue]

theorem opCount_paren (ops : StackSHPP Str) : opCount (['('] :: ops) = opCount ops := by
  simp [opCount]

theorem opCount_op (op : Op) (ops : StackSHPP Str) :
    opCount (op.token :: ops) = opCount ops + 1 := by
  have : (op.token != ['(']) = true := by cases op <;> decide
  simp [opCount, this]

theorem parenCount_paren (ops : StackSHPP Str) :
    parenCount (['('] :: ops) = parenCount ops + 1 := by
  simp [parenCount]

theorem parenCount_op (op : Op) (ops : StackSHPP Str) :
    parenCount (op.token :: ops) = parenCount ops := by
  have : ['('] ≠ op.token := by cases op <;> decide
  simp [parenCount, List.count_cons_of_ne this]

theorem stackEntriesOk_cons (x : Str) (ops : StackSHPP Str)
    (hx : x = ['('] ∨ ∃ op : Op, x = op.token) (h : stackEntriesOk ops) :
    stackEntriesOk (x :: ops) := by
  intro y hy
  rcases List.mem_cons.1 hy with rfl | hy
  · exact hx
  · exact h y hy

theorem stackEntriesOk_tail (x : Str) (ops : StackSHPP Str)
    (h : stackEntriesOk (x :: ops)) : stackEntriesOk ops :=
  fun y hy => h y (List.mem_cons_of_mem _ hy)

/-- The loop run at `)` finds the `(` when one is on the stack. -/
theorem closeParenLoop_holding (ops : StackSHPP Str) (res : List Str)
    (h : Holding res ops) (hp : 1 ≤ parenCount ops) :
    ∃ (ops2 : StackSHPP Str) (res2 : List Str),
      closeParenLoop ops res = Except.ok (['('] :: ops2, res2)
      ∧ Holding res2 ops2 ∧ parenCount ops2 + 1 = parenCount ops := by
  induction ops generalizing res with
  | nil => simp [parenCount] at hp
  | cons t ops ih =>
    obtain ⟨hok, hd⟩ := h
    rcases hok t (by simp) with rfl | ⟨op, rfl⟩
    · refine ⟨ops, res, closeParenLoop_open ops res, ⟨stackEntriesOk_tail _ _ hok, ?_⟩, ?_⟩
      · rw [opCount_paren] at hd; exact hd
      · rw [parenCount_paren]
    · rw [closeParenLoop_op]
      rw [parenCount_op] at hp
      rw [opCount_op] at hd
      obtain ⟨ops2, res2, e, hh, hc⟩ := ih (res ++ [op.token])
        ⟨stackEntriesOk_tail _ _ hok, depthRun_snoc_op res op (opCount ops) hd⟩ hp
      exact ⟨ops2, res2, e, hh, by rw [parenCount_op]; exact hc⟩

/-- The loop run at a binary operator keeps the converter holding an operand
and never takes a `(` off the stack. -/
theorem operatorLoop_holding (token : Str) (ht : 1 ≤ opPriority (charAt0 token))
    (ops : StackSHPP Str) (res : List Str) (h : Holding res ops) :
    Holding (operatorLoop token ops res).2 (operatorLoop token ops res).1
    ∧ parenCount (operatorLoop token ops res).1 = parenCount ops := by
  induction ops generalizing res with
  | nil => exact ⟨h, rfl⟩
  | cons t ops ih =>
    obtain ⟨hok, hd⟩ := h
    rcases hok t (by simp) with rfl | ⟨op, rfl⟩
    · rw [operatorLoop_at_open token ops res ht]
      exact ⟨⟨hok, hd⟩, rfl⟩
    · by_cases hc : opPriority (charAt0 op.token) ≥ opPriority (charAt0 token)
      · rw [operatorLoop, if_pos hc]
        rw [opCount_op] at hd
        obtain ⟨hh, hp⟩ := ih (res ++ [op.token])
          ⟨stackEntriesOk_tail _ _ hok, depthRun_snoc_op res op (opCount ops) hd⟩
        exact ⟨hh, by rw [parenCount_op]; exact hp⟩
      · rw [operatorLoop, if_neg hc]
        exact ⟨⟨hok, hd⟩, rfl⟩

theorem converts_number (n prev : Str) (hn : isdigit (charAt0 n) = true) :
    Converts [n] prev := by
  intro rest res ops h
  obtain ⟨n1, n2, _, _, n5⟩ := digit_token_facts n hn
  refine ⟨res ++ [n], ops, n, ?_, n1, n2, ⟨h.1, depthRun_snoc_number _ _ _ h.2 n5⟩, rfl⟩
  exact rpnLoop_cons_ok _ _ _ _ (rpnStep_number res ops prev n hn)

theorem converts_minus_number (n prev : Str) (hn : isdigit (charAt0 n) = true)
    (hp : prev = [] ∨ prev = ['(']) : Converts [['-'], n] prev := by
  intro rest res ops h
  obtain ⟨n1, n2, _⟩ := digit_token_facts n hn
  refine ⟨res ++ [('-' :: n)], ops, n, ?_, n1, n2,
    ⟨h.1, depthRun_snoc_number _ _ _ h.2 (isNumberToken_minus n n1)⟩, rfl⟩
  simp only [List.cons_append, List.nil_append]
  rw [rpnLoop_cons_ok _ _ _ _ (rpnStep_unary res ops false prev hp),
    rpnLoop_cons_ok _ _ _ _ (rpnStep_number_minus res ops ['-'] n hn)]

theorem converts_paren (toks : List Str) (prev : Str) (h : Converts toks ['(']) :
    Converts (['('] :: (toks ++ [[')']])) prev := by
  intro rest res ops hx
  have hx1 : Expecting res (['('] :: ops) :=
    ⟨stackEntriesOk_cons _ _ (Or.inl rfl) hx.1, by rw [opCount_paren]; exact hx.2⟩
  obtain ⟨res1, ops1, prev1, e1, _, _, hh, hc⟩ := h ([')'] :: rest) res (['('] :: ops) hx1
  rw [parenCount_paren] at hc
  obtain ⟨ops2, res2, e2, hh2, hc2⟩ := closeParenLoop_holding ops1 res1 hh (by omega)
  refine ⟨res2, ops2, [')'], ?_, by decide, by decide, hh2, by omega⟩
  have e0 : ['('] :: (toks ++ [[')']]) ++ rest = ['('] :: (toks ++ ([')'] :: rest)) := by
    simp
  rw [e0, rpnLoop_cons_ok _ _ _ _ (rpnStep_open res ops false prev), e1]
  apply rpnLoop_cons_ok
  rw [rpnStep_close, e2]
  rfl

theorem converts_binary (l r : List Str) (op : Op) (prev : Str)
    (hl : Converts l prev) (hr : Converts r op.token) :
    Converts (l ++ op.token :: r) prev := by
  intro rest res ops hx
  obtain ⟨res1, ops1, prev1, e1, p1, p2, hh, hc⟩ := hl (op.token :: (r ++ rest)) res ops hx
  obtain ⟨hh2, hc2⟩ :=
    operatorLoop_holding op.token (op_token_facts op).2.2.2.2.2 ops1 res1 hh
  have hx2 : Expecting (operatorLoop op.token ops1 res1).2
      (op.token :: (operatorLoop op.token ops1 res1).1) :=
    ⟨stackEntriesOk_cons _ _ (Or.inr ⟨op, rfl⟩) hh2.1, by rw [opCount_op]; exact hh2.2⟩
  obtain ⟨res3, ops3, prev3, e3, q1, q2, hh3, hc3⟩ := hr rest _ _ hx2
  refine ⟨res3, ops3, prev3, ?_, q1, q2, hh3, ?_⟩
  · have e0 : l ++ op.token :: r ++ rest = l ++ (op.token :: (r ++ rest)) := by simp
    rw [e0, e1,
      rpnLoop_cons_ok _ _ _ _ (rpnStep_operator res1 ops1 false prev1 op (fun _ => ⟨p1, p2⟩)),
      e3]
  · rw [hc3, parenCount_op, hc2, hc]

/-- The converter on a well-formed expression met where an operand is
expected, at the very start or right after `(`. -/
theorem converts_wf (e : WfExpr) (h : ∀ n ∈ e.literals, isLiteral n = true)
    (prev : Str) (hp : prev = [] ∨ prev = ['(']) : Converts e.tokens prev := by
  induction e generalizing prev with
  | num minus n =>
    have hn := literal_digit_start n (h n (by simp [WfExpr.literals]))
    cases minus with
    | false => exact converts_number n prev hn
    | true => exact converts_minus_number n prev hn hp
  | par e ih =>
    have := converts_paren e.tokens prev
      (ih (fun n hn => h n (by simpa [WfExpr.literals] using hn)) ['('] (Or.inr rfl))
    simpa [WfExpr.tokens] using this
  | opNum l op n ihl =>
    have hn := literal_digit_start n (h n (by simp [WfExpr.literals]))
    exact converts_binary l.tokens [n] op prev
      (ihl (fun m hm => h m (by simp [WfExpr.literals, hm])) prev hp)
      (converts_number n op.token hn)
  | opPar l op e ihl ihe =>
    have := converts_binary l.tokens (['('] :: (e.tokens ++ [[')']])) op prev
      (ihl (fun m hm => h m (by simp [WfExpr.literals, hm])) prev hp)
      (converts_paren e.tokens op.token
        (ihe (fun m hm => h m (by simp [WfExpr.literals, hm])) ['('] (Or.inr rfl)))
    simpa [WfExpr.tokens] using this

theorem depthRun_drain (ops : StackSHPP Str) (res : List Str) (h : Holding res ops)
    (hp : parenCount ops = 0) : depthRun (res ++ ops) 0 = some 1 := by
  induction ops generalizing res with
  | nil => simpa [opCount] using h.2
  | cons t ops ih =>
    obtain ⟨hok, hd⟩ := h
    rcases hok t (by simp) with rfl | ⟨op, rfl⟩
    · rw [parenCount_paren] at hp; omega
    · rw [parenCount_op] at hp
      rw [opCount_op] at hd
      have := ih (res ++ [op.token])
        ⟨stackEntriesOk_tail _ _ hok, depthRun_snoc_op res op (opCount ops) hd⟩ hp
      simpa using this

theorem wf_tokens (e : WfExpr) (h : ∀ n ∈ e.literals, isLiteral n = true) :
    ∀ x ∈ e.tokens, isLiteral x = true ∨ isSymbolToken x = true := by
  have hop : ∀ op : Op, isSymbolToken op.token = true := by
    intro op; cases op <;> decide
  induction e with
  | num minus n =>
    have hn := h n (by simp [WfExpr.literals])
    cases minus with
    | false => intro x hx; simp [WfExpr.tokens] at hx; subst hx; exact Or.inl hn
    | true =>
      intro x hx
      simp only [WfExpr.tokens, List.mem_cons, List.mem_singleton, List.not_mem_nil,
        or_false] at hx
      rcases hx with rfl | rfl
      · exact Or.inr (by decide)
      · exact Or.inl hn
  | par e ih =>
    intro x hx
    simp only [WfExpr.tokens, List.mem_append, List.mem_singleton] at hx
    rcases hx with (hx | hx) | hx
    · subst hx; exact Or.inr (by decide)
    · exact ih (fun n hn => h n (by simpa [WfExpr.literals] using hn)) x hx
    · subst hx; exact Or.inr (by decide)
  | opNum l op n ihl =>
    intro x hx
    simp only [WfExpr.tokens, List.mem_append, List.mem_cons, List.mem_singleton,
      List.not_mem_nil, or_false] at hx
    rcases hx with hx | hx | hx
    · exact ihl (fun m hm => h m (by simp [WfExpr.literals, hm])) x hx
    · subst hx; exact Or.inr (hop op)
    · subst hx; exact Or.inl (h x (by simp [WfExpr.literals]))
  | opPar l op e ihl ihe =>
    intro x hx
    simp only [WfExpr.tokens, List.mem_append, List.mem_cons, List.mem_singleton,
      List.not_mem_nil, or_false] at hx
    rcases hx with ((hx | hx | hx) | hx) | hx
    · exact ihl (fun m hm => h m (by simp [WfExpr.literals, hm])) x hx
    · subst hx; exact Or.inr (hop op)
    · subst hx; exact Or.inr (by decide)
    · exact ihe (fun m hm => h m (by simp [WfExpr.literals, hm])) x hx
    · subst hx; exact Or.inr (by decide)

theorem wf_text_cases (rest : Str) :
    (∀ n : Str, (WfExpr.num false n).text ++ rest = n ++ rest)
    ∧ (∀ n : Str, (WfExpr.num true n).text ++ rest = '-' :: (n ++ rest))
    ∧ (∀ e : WfExpr, (WfExpr.par e).text ++ rest = '(' :: (e.text ++ (')' :: rest)))
    ∧ (∀ (l : WfExpr) (op : Op) (n : Str),
        (WfExpr.opNum l op n).text ++ rest = l.text ++ (op.symbol :: (n ++ rest)))
    ∧ (∀ (l : WfExpr) (op : Op) (e : WfExpr),
        (WfExpr.opPar l op e).text ++ rest
          = l.text ++ (op.symbol :: ('(' :: (e.text ++ (')' :: rest))))) := by
  refine ⟨?_, ?_, ?_, ?_, ?_⟩ <;> intros <;> simp [WfExpr.text, WfExpr.tokens, Op.token]

theorem scanTokens_wf (e : WfExpr) (h : ∀ n ∈ e.literals, isLiteral n = true)
    (rest : Str) (hr : ∀ c ∈ rest.head?, c ∈ ['+', '-', '/', '*', '^', '(', ')']) :
    scanTokens none (e.text ++ rest) = e.tokens ++ scanTokens none rest := by
  have hsym : ∀ (c : Char) (r : Str), c ∈ ['+', '-', '/', '*', '^', '(', ')'] →
      ∀ d ∈ (c :: r).head?, d ∈ ['+', '-', '/', '*', '^', '(', ')'] := by
    intro c r hc d hd
    simp only [List.head?_cons, Option.mem_def, Option.some.injEq] at hd
    subst hd; exact hc
  have hops : ∀ op : Op, op.symbol ∈ ['+', '-', '/', '*', '^', '(', ')'] := by
    intro op; cases op <;> decide
  induction e generalizing rest with
  | num minus n =>
    have hn := h n (by simp [WfExpr.literals])
    cases minus with
    | false =>
      rw [(wf_text_cases rest).1, scanTokens_literal_then n hn rest hr]
      rfl
    | true =>
      rw [(wf_text_cases rest).2.1, scanTokens_none_symbol _ _ (by decide),
        scanTokens_literal_then n hn rest hr]
      rfl
  | par e ih =>
    rw [(wf_text_cases rest).2.2.1, scanTokens_none_symbol _ _ (by decide),
      ih (fun n hn => h n (by simpa [WfExpr.literals] using hn)) _
        (hsym _ _ (by decide)),
      scanTokens_none_symbol _ _ (by decide)]
    simp [WfExpr.tokens]
  | opNum l op n ihl =>
    have hn := h n (by simp [WfExpr.literals])
    rw [(wf_text_cases rest).2.2.2.1,
      ihl (fun m hm => h m (by simp [WfExpr.literals, hm])) _ (hsym _ _ (hops op)),
      scanTokens_op, scanTokens_literal_then n hn rest hr]
    simp [WfExpr.tokens]
  | opPar l op e ihl ihe =>
    rw [(wf_text_cases rest).2.2.2.2,
      ihl (fun m hm => h m (by simp [WfExpr.literals, hm])) _ (hsym _ _ (hops op)),
      scanTokens_op, scanTokens_none_symbol _ _ (by decide),
      ihe (fun m hm => h m (by simp [WfExpr.literals, hm])) _ (hsym _ _ (by decide)),
      scanTokens_none_symbol _ _ (by decide)]
    simp [WfExpr.tokens]

theorem checkLoop_wf (e : WfExpr) (h : ∀ n ∈ e.literals, isLiteral n = true)
    (rest : Str) (b : Bool) (stk : StackSHPP Char) :
    checkLoop (e.text ++ rest) (b, stk) = checkLoop rest (b, stk) := by
  induction e generalizing rest stk with
  | num minus n =>
    have hn := h n (by simp [WfExpr.literals])
    cases minus with
    | false => rw [(wf_text_cases rest).1, checkLoop_literal n hn]
    | true =>
      rw [(wf_text_cases rest).2.1]
      exact (checkLoop_op Op.sub _ _).trans (checkLoop_literal n hn _ _)
  | par e ih =>
    rw [(wf_text_cases rest).2.2.1, checkLoop_open,
      ih (fun n hn => h n (by simpa [WfExpr.literals] using hn)), checkLoop_close]
  | opNum l op n ihl =>
    have hn := h n (by simp [WfExpr.literals])
    rw [(wf_text_cases rest).2.2.2.1,
      ihl (fun m hm => h m (by simp [WfExpr.literals, hm])), checkLoop_op,
      checkLoop_literal n hn]
  | opPar l op e ihl ihe =>
    rw [(wf_text_cases rest).2.2.2.2,
      ihl (fun m hm => h m (by simp [WfExpr.literals, hm])), checkLoop_op, checkLoop_open,
      ihe (fun m hm => h m (by simp [WfExpr.literals, hm])), checkLoop_close]

/-- C1: for every well-formed expression (operands are number literals or
parenthesised well-formed expressions, one binary operator between consecutive
operands, an optional `-` before a number literal at the very start or right
after `(`), the pipeline `filterExpression → checkParenthesis →
toReversePolishNotation → calcLine` keeps the text, accepts it, converts it
without error and returns a number. A pop or a top of an empty stack is an error
in this model, so neither the operator stack of the converter nor the operand
stack of the evaluator is popped while empty. All functions of the model are
total, so the pipeline terminates. -/
theorem evaluate_wellformed (e : WfExpr) (h : ∀ n ∈ e.literals, isLiteral n = true)
    (α : Type) (D : DoubleOps α) :
    filterExpression e.text = e.text
    ∧ checkParenthesis e.text = true
    ∧ ∃ (q : List Str) (v : α),
        toReversePolishNotation e.text = Except.ok q
        ∧ depthRun q 0 = some 1
        ∧ calcLine D q = Except.ok v
        ∧ evaluate D e.text = Except.ok v := by
  have hflt : filterExpression e.text = e.text :=
    filterExpression_flatten _ (wf_tokens e h)
  have hchk : checkParenthesis e.text = true := by
    apply checkParenthesis_of_checkLoop
    have := checkLoop_wf e h [] true []
    rw [List.append_nil] at this
    rw [this]; rfl
  have htok : TokenScanner.tokens e.text = e.tokens := by
    have := scanTokens_wf e h [] (by simp)
    simpa [TokenScanner.tokens, scanTokens] using this
  obtain ⟨res1, ops1, prev1, e1, _, _, hh, hc⟩ :=
    converts_wf e h [] (Or.inl rfl) [] [] [] ⟨by intro x hx; simp at hx, rfl⟩
  rw [List.append_nil] at e1
  have hrpn : rpnOfTokens e.tokens = Except.ok (res1 ++ ops1) := by
    simp [rpnOfTokens, e1, rpnLoop, drainLoop_eq]
  have hdepth : depthRun (res1 ++ ops1) 0 = some 1 :=
    depthRun_drain ops1 res1 hh (by simpa [parenCount] using hc)
  obtain ⟨stk, hs1, hs2⟩ := calcLoop_of_depthRun D (res1 ++ ops1) [] 1 hdepth
  match stk, hs2 with
  | [v], _ =>
    have hcalc : calcLine D (res1 ++ ops1) = Except.ok v := by
      simp [calcLine, hs1, StackSHPP.pop]
    refine ⟨hflt, hchk, res1 ++ ops1, v, ?_, hdepth, hcalc, ?_⟩
    · rw [toReversePolishNotation, htok, hrpn]
    · rw [evaluate_of_tokens D _ _ hflt hchk htok, hrpn]
      exact hcalc

/-- C1, at `-2*(8/4)^2`, the example of the header of Calculator.cpp: the
pipeline returns a number, namely `(-2) * pow(8 / 4, 2)`. -/
theorem evaluate_wellformed_witness :
    (∃ v, evaluate symbolicOps "-2*(8/4)^2".toList = Except.ok v)
    ∧ evaluate symbolicOps "-2*(8/4)^2".toList
      = Except.ok (Sym.mul (Sym.neg (Sym.num ['2']))
          (Sym.pow (Sym.div (Sym.num ['8']) (Sym.num ['4'])) (Sym.num ['2']))) :=
  have h := evaluate_wellformed
    (WfExpr.opNum
      (WfExpr.opPar (WfExpr.num true ['2']) Op.mul
        (WfExpr.opNum (WfExpr.num false ['8']) Op.div ['4']))
      Op.pow ['2'])
    (by decide) Sym symbolicOps
  ⟨h.2.2.elim fun _ hq => hq.elim fun v hv => ⟨v, hv.2.2.2⟩, rfl⟩

/-! ### Division by zero -/

/-- The converter on `a op b`. -/
theorem rpnOfTokens_one_op (a b : Str) (op : Op)
    (ha : isdigit (charAt0 a) = true) (hb : isdigit (charAt0 b) = true) :
    rpnOfTokens [a, op.token, b] = Except.ok [a, b, op.token] := by
  obtain ⟨a1, a2, _⟩ := digit_token_facts a ha
  unfold rpnOfTokens
  rw [rpnLoop_cons_ok _ _ _ _ (rpnStep_number [] [] [] a ha),
    rpnLoop_cons_ok _ _ _ _ (rpnStep_operator _ _ false a op (fun _ => ⟨a1, a2⟩)),
    operatorLoop_nil,
    rpnLoop_cons_ok _ _ _ _ (rpnStep_number _ _ _ b hb)]
  rfl

/-- The pipeline on the text `a op b`. -/
theorem evaluate_one_op (a b : Str) (op : Op)
    (ha : isLiteral a = true) (hb : isLiteral b = true) :
    checkParenthesis (a ++ op.token ++ b) = true
    ∧ toReversePolishNotation (a ++ op.token ++ b) = Except.ok [a, b, op.token]
    ∧ ∀ (α : Type) (D : DoubleOps α),
        calcLine D [a, b, op.token]
          = Except.ok (doOperation D (D.stod a) (D.stod b) op.token)
        ∧ evaluate D (a ++ op.token ++ b)
          = Except.ok (doOperation D (D.stod a) (D.stod b) op.token) := by
  have da := literal_digit_start a ha
  have db := literal_digit_start b hb
  have htext : a ++ op.token ++ b = [a, op.token, b].flatten := by simp
  have hmem : ∀ t ∈ [a, op.token, b], isLiteral t = true ∨ isSymbolToken t = true := by
    intro t ht
    simp only [List.mem_cons, List.mem_singleton, List.not_mem_nil, or_false] at ht
    rcases ht with rfl | rfl | rfl
    · exact Or.inl ha
    · exact Or.inr (by cases op <;> decide)
    · exact Or.inl hb
  have hsep : separated [a, op.token, b] = true := by
    simp [separated, isLiteral_op_token]
  have htok := tokens_flatten _ hmem hsep
  have hflt := filterExpression_flatten _ hmem
  have hchk : checkParenthesis [a, op.token, b].flatten = true := by
    apply checkParenthesis_of_checkLoop
    have e : [a, op.token, b].flatten = a ++ (op.symbol :: (b ++ [])) := by
      simp [Op.token]
    rw [e, checkLoop_literal a ha, checkLoop_op, checkLoop_literal b hb]
    rfl
  have hrpn := rpnOfTokens_one_op a b op da db
  have hcalc : ∀ (α : Type) (D : DoubleOps α), calcLine D [a, b, op.token]
      = Except.ok (doOperation D (D.stod a) (D.stod b) op.token) := by
    intro α D
    have := calcLine_tree D (Tree.node op (Tree.leaf a) (Tree.leaf b))
      (by
        intro x hx
        simp only [Tree.leaves, List.mem_append, List.mem_singleton] at hx
        rcases hx with rfl | rfl
        · exact (digit_token_facts _ da).2.2.2.2
        · exact (digit_token_facts _ db).2.2.2.2)
    simpa [Tree.postorder, Tree.value, numberValue_literal, ha, hb] using this
  refine ⟨by rw [htext]; exact hchk, ?_, fun α D => ⟨hcalc α D, ?_⟩⟩
  · rw [htext, toReversePolishNotation, htok, hrpn]
  · rw [htext, evaluate_of_tokens D _ _ hflt hchk htok, hrpn]
    exact hcalc α D

/-- The pipeline on the text `- a op b`. -/
theorem evaluate_minus_one_op (a b : Str) (op : Op)
    (ha : isLiteral a = true) (hb : isLiteral b = true) :
    checkParenthesis (['-'] ++ a ++ op.token ++ b) = true
    ∧ toReversePolishNotation (['-'] ++ a ++ op.token ++ b)
        = Except.ok [('-' :: a), b, op.token]
    ∧ ∀ (α : Type) (D : DoubleOps α),
        calcLine D [('-' :: a), b, op.token]
          = Except.ok (doOperation D (D.neg (D.stod a)) (D.stod b) op.token)
        ∧ evaluate D (['-'] ++ a ++ op.token ++ b)
          = Except.ok (doOperation D (D.neg (D.stod a)) (D.stod b) op.token) := by
  have da := literal_digit_start a ha
  have db := literal_digit_start b hb
  have a0 := (digit_token_facts a da).1
  have htext : ['-'] ++ a ++ op.token ++ b = [['-'], a, op.token, b].flatten := by simp
  have hmem : ∀ t ∈ [['-'], a, op.token, b],
      isLiteral t = true ∨ isSymbolToken t = true := by
    intro t ht
    simp only [List.mem_cons, List.mem_singleton, List.not_mem_nil, or_false] at ht
    rcases ht with rfl | rfl | rfl | rfl
    · exact Or.inr (by decide)
    · exact Or.inl ha
    · exact Or.inr (by cases op <;> decide)
    · exact Or.inl hb
  have hsep : separated [['-'], a, op.token, b] = true := by
    have : isLiteral ['-'] = false := by decide
    simp [separated, isLiteral_op_token, this]
  have htok := tokens_flatten _ hmem hsep
  have hflt := filterExpression_flatten _ hmem
  have hchk : checkParenthesis [['-'], a, op.token, b].flatten = true := by
    apply checkParenthesis_of_checkLoop
    have e : [['-'], a, op.token, b].flatten
        = Op.sub.symbol :: (a ++ (op.symbol :: (b ++ []))) := by
      simp [Op.token, Op.symbol]
    rw [e, checkLoop_op, checkLoop_literal a ha, checkLoop_op, checkLoop_literal b hb]
    rfl
  have hrpn := rpnOfTokens_leading_minus a b op da db
  have hcalc : ∀ (α : Type) (D : DoubleOps α), calcLine D [('-' :: a), b, op.token]
      = Except.ok (doOperation D (D.neg (D.stod a)) (D.stod b) op.token) := by
    intro α D
    have := calcLine_tree D (Tree.node op (Tree.leaf ('-' :: a)) (Tree.leaf b))
      (by
        intro x hx
        simp only [Tree.leaves, List.mem_append, List.mem_singleton] at hx
        rcases hx with rfl | rfl
        · exact isNumberToken_minus a a0
        · exact (digit_token_facts _ db).2.2.2.2)
    simpa [Tree.postorder, Tree.value, numberValue_literal, hb, numberValue_minus, a0]
      using this
  refine ⟨by rw [htext]; exact hchk, ?_, fun α D => ⟨hcalc α D, ?_⟩⟩
  · rw [htext, toReversePolishNotation, htok, hrpn]
  · rw [htext, evaluate_of_tokens D _ _ hflt hchk htok, hrpn]
    exact hcalc α D

/-- C11: division by zero is not an error. For every unsigned number literal
`a`, the text `a/0` passes the balance check, is converted to `[a, 0, /]`, and
`calcLine` returns the quotient `doOperation(a, 0, "/") = a / 0`; the text
`-a/0` is converted to `[-a, 0, /]` and gives `(-a) / 0`. No stack underflow and
no other error is raised; so for `4/0`, `-4/0` and `0/0`. -/
theorem division_by_zero_returns_quotient (a : Str) (ha : isLiteral a = true) :
    (checkParenthesis (a ++ ['/'] ++ ['0']) = true
      ∧ toReversePolishNotation (a ++ ['/'] ++ ['0']) = Except.ok [a, ['0'], ['/']]
      ∧ ∀ (α : Type) (D : DoubleOps α),
          doOperation D (D.stod a) (D.stod ['0']) ['/'] = D.div (D.stod a) (D.stod ['0'])
          ∧ calcLine D [a, ['0'], ['/']] = Except.ok (D.div (D.stod a) (D.stod ['0']))
          ∧ evaluate D (a ++ ['/'] ++ ['0']) = Except.ok (D.div (D.stod a) (D.stod ['0'])))
    ∧ (checkParenthesis (['-'] ++ a ++ ['/'] ++ ['0']) = true
      ∧ toReversePolishNotation (['-'] ++ a ++ ['/'] ++ ['0'])
          = Except.ok [('-' :: a), ['0'], ['/']]
      ∧ ∀ (α : Type) (D : DoubleOps α),
          calcLine D [('-' :: a), ['0'], ['/']]
            = Except.ok (D.div (D.neg (D.stod a)) (D.stod ['0']))
          ∧ evaluate D (['-'] ++ a ++ ['/'] ++ ['0'])
            = Except.ok (D.div (D.neg (D.stod a)) (D.stod ['0'])))
    ∧ (∀ (α : Type) (D : DoubleOps α),
        evaluate D "4/0".toList = Except.ok (D.div (D.stod ['4']) (D.stod ['0']))
        ∧ evaluate D "-4/0".toList
            = Except.ok (D.div (D.neg (D.stod ['4'])) (D.stod ['0']))
        ∧ evaluate D "0/0".toList = Except.ok (D.div (D.stod ['0']) (D.stod ['0']))) := by
  have h0 : isLiteral ['0'] = true := by decide
  obtain ⟨p1, p2, p3⟩ := evaluate_one_op a ['0'] Op.div ha h0
  obtain ⟨q1, q2, q3⟩ := evaluate_minus_one_op a ['0'] Op.div ha h0
  exact ⟨⟨p1, p2, fun α D => ⟨rfl, (p3 α D).1, (p3 α D).2⟩⟩,
    ⟨q1, q2, fun α D => ⟨(q3 α D).1, (q3 α D).2⟩⟩,
    fun _ _ => ⟨rfl, rfl, rfl⟩⟩

/-- C11, at `12.5/0`: the pipeline returns the quotient `12.5 / 0`. -/
theorem division_by_zero_returns_quotient_witness :
    evaluate symbolicOps "12.5/0".toList
      = Except.ok (Sym.div (Sym.num "12.5".toList) (Sym.num ['0']))
    ∧ evaluate symbolicOps "-12.5/0".toList
      = Except.ok (Sym.div (Sym.neg (Sym.num "12.5".toList)) (Sym.num ['0'])) :=
  have h := division_by_zero_returns_quotient "12.5".toList (by decide)
  ⟨(h.1.2.2 Sym symbolicOps).2.2, (h.2.1.2.2 Sym symbolicOps).2⟩

/-! ### The evaluator and the depth counter -/

/-- A postfix sequence that fails the depth counter makes the loop of
`calcLine` pop an empty stack. -/
theorem calcLoop_of_depthRun_none {α : Type} (D : DoubleOps α) (line : List Str)
    (numbers : StackSHPP α) (h : depthRun line numbers.length = none) :
    calcLoop D line numbers = Except.error EvaluationError.StackUnderflow := by
  induction line generalizing numbers with
  | nil => simp [depthRun] at h
  | cons tmp line ih =>
    by_cases hn : isNumberToken tmp = true
    · rw [calcLoop_number D tmp line numbers hn]
      apply ih
      simpa [depthRun, hn] using h
    · have hn1 : ¬ (tmp.length > 1 ∧ charAt0 tmp = '-') := by
        intro hc; apply hn; simp [isNumberToken, hc.1, hc.2]
      have hn2 : ¬ (isdigit (charAt0 tmp) = true) := by
        intro hc; apply hn; simp [isNumberToken, hc]
      have hn3 : ¬ (tmp.length > 1 ∧ isdigit (charAt0 tmp) = true) := fun hc => hn2 hc.2
      rw [calcLoop, if_neg hn1, if_neg hn3, if_neg hn2]
      match numbers with
      | [] => rfl
      | [_] => rfl
      | o2 :: o1 :: numbers2 =>
        simp only [StackSHPP.pop, StackSHPP.push]
        apply ih
        simpa [depthRun, hn] using h

/-- C12: `calcLine` fails exactly on malformed postfix input. With the depth
counter that starts at 0, adds 1 at each number token and, at each other token,
requires a depth of at least 2 and takes 1 away, `calcLine` returns a value if
and only if every requirement is met and the final depth is at least 1;
otherwise it fails with a stack underflow. -/
theorem calcLine_iff_depthRun {α : Type} (D : DoubleOps α) (line : List Str) :
    ((∃ v, calcLine D line = Except.ok v) ↔ ∃ d, depthRun line 0 = some d ∧ 1 ≤ d)
    ∧ ((¬ ∃ d, depthRun line 0 = some d ∧ 1 ≤ d) →
        calcLine D line = Except.error EvaluationError.StackUnderflow) := by
  cases hd : depthRun line 0 with
  | none =>
    have e := calcLoop_of_depthRun_none D line [] hd
    have hc : calcLine D line = Except.error EvaluationError.StackUnderflow := by
      simp [calcLine, e]
    refine ⟨⟨?_, ?_⟩, fun _ => hc⟩
    · rintro ⟨v, hv⟩; rw [hc] at hv; cases hv
    · rintro ⟨d, h, _⟩; cases h
  | some d =>
    obtain ⟨stk, e, hl⟩ := calcLoop_of_depthRun D line [] d hd
    match stk, hl with
    | [], hl =>
      have hc : calcLine D line = Except.error EvaluationError.StackUnderflow := by
        simp [calcLine, e, StackSHPP.pop]
      have hd0 : d = 0 := by simpa using hl.symm
      refine ⟨⟨?_, ?_⟩, fun _ => hc⟩
      · rintro ⟨v, hv⟩; rw [hc] at hv; cases hv
      · rintro ⟨d1, h, h1⟩
        simp only [Option.some.injEq] at h
        omega
    | v :: rest, hl =>
      have hc : calcLine D line = Except.ok v := by
        simp [calcLine, e, StackSHPP.pop]
      have hd1 : 1 ≤ d := by simp at hl; omega
      refine ⟨⟨fun _ => ⟨d, rfl, hd1⟩, fun _ => ⟨v, hc⟩⟩, fun h => ?_⟩
      exact absurd ⟨d, rfl, hd1⟩ h

/-! ### The balance check looks at parentheses only -/

theorem checkLoop_filter (p : Char → Bool) (h1 : p '(' = true) (h2 : p ')' = true)
    (s : Str) (st : Bool × StackSHPP Char) :
    checkLoop (s.filter p) st = checkLoop s st := by
  induction s generalizing st with
  | nil => rfl
  | cons ch rest ih =>
    by_cases hp : p ch = true
    · rw [List.filter_cons_of_pos hp, checkLoop, checkLoop, ih]
    · have n1 : ch ≠ '(' := by rintro rfl; exact hp h1
      have n2 : ch ≠ ')' := by rintro rfl; exact hp h2
      rw [List.filter_cons_of_neg hp, checkLoop, checkStep_other st.1 st.2 ch n1 n2]
      exact ih st

/-- C17: `checkParenthesis` looks at parentheses only. Its verdict on `s` is its
verdict on `s` with every character other than `(` and `)` removed, and more
generally on `s` filtered by any test that keeps both parentheses; in
particular `checkParenthesis(filterExpression(s)) = checkParenthesis(s)`. -/
theorem checkParenthesis_parentheses_only (s : Str) :
    checkParenthesis (s.filter (fun c => c == '(' || c == ')')) = checkParenthesis s
    ∧ checkParenthesis (filterExpression s) = checkParenthesis s
    ∧ (∀ p : Char → Bool, p '(' = true → p ')' = true →
        checkParenthesis (s.filter p) = checkParenthesis s) := by
  have key : ∀ p : Char → Bool, p '(' = true → p ')' = true →
      checkParenthesis (s.filter p) = checkParenthesis s := by
    intro p h1 h2
    simp only [checkParenthesis, checkLoop_filter p h1 h2]
  refine ⟨key _ (by decide) (by decide), ?_, key⟩
  rw [filterExpression_eq_filter]
  exact key filterKeeps (by decide) (by decide)

/-! ### No operand at all -/

/-- C20: an input without any operand passes the balance check and cannot be
evaluated.
For every raw line whose sanitized form is empty (exactly the lines without any
digit, decimal point, operator or parenthesis), `checkParenthesis` accepts the
sanitized form, `toReversePolishNotation` returns the empty sequence, and
`calcLine` fails with a stack underflow on its final `pop`. -/
theorem evaluate_no_operand (s : Str) (h : filterExpression s = [])
    (α : Type) (D : DoubleOps α) :
    (∀ c ∈ s, ¬ allowedChar c)
    ∧ checkParenthesis (filterExpression s) = true
    ∧ toReversePolishNotation (filterExpression s) = Except.ok []
    ∧ calcLoop D [] [] = Except.ok []
    ∧ calcLine D [] = Except.error EvaluationError.StackUnderflow
    ∧ evaluate D s = Except.error EvaluationError.StackUnderflow := by
  refine ⟨?_, by rw [h]; rfl, by rw [h]; rfl, rfl, rfl, ?_⟩
  · intro c hc ha
    have : c ∈ filterExpression s := by
      rw [filterExpression_eq_filter]
      exact List.mem_filter.2 ⟨hc, (filterKeeps_iff c).2 ha⟩
    rw [h] at this
    cases this
  · simp only [evaluate, h]
    rfl

/-- C20, at a line of letters and spaces and at the empty line. -/
theorem evaluate_no_operand_witness :
    filterExpression "two plus two".toList = []
    ∧ evaluate symbolicOps "two plus two".toList
        = Except.error EvaluationError.StackUnderflow
    ∧ evaluate symbolicOps "".toList = Except.error EvaluationError.StackUnderflow :=
  ⟨by decide,
   (evaluate_no_operand "two plus two".toList (by decide) Sym symbolicOps).2.2.2.2.2,
   (evaluate_no_operand "".toList (by decide) Sym symbolicOps).2.2.2.2.2⟩

/-! ### Binary minus -/

/-- C16: a `-` is a unary minus only when it is the first token or the previous
token is `(`: then nothing is pushed and the flag is set. After any other token
it is handled by the operator branch, with priority 1. Consequently, for unsigned
number literals `a` and `b`, the text `a*-b` is converted to `[a, *, b, -]`, on
which `calcLine` fails with a stack underflow. -/
theorem minus_binary_after_operator (a b : Str)
    (ha : isLiteral a = true) (hb : isLiteral b = true) :
    (∀ st : RpnState, st.prevToken = [] ∨ st.prevToken = ['('] →
        rpnStep st ['-'] = Except.ok ⟨st.result, st.operators, true, ['-']⟩)
    ∧ (∀ st : RpnState, st.prevToken ≠ [] → st.prevToken ≠ ['('] →
        rpnStep st ['-'] = Except.ok
          ⟨(operatorLoop ['-'] st.operators st.result).2,
            ['-'] :: (operatorLoop ['-'] st.operators st.result).1,
            st.minusTrigger, ['-']⟩)
    ∧ opPriority '-' = 1
    ∧ rpnOfTokens [a, ['*'], ['-'], b] = Except.ok [a, ['*'], b, ['-']]
    ∧ toReversePolishNotation (a ++ ['*'] ++ ['-'] ++ b) = Except.ok [a, ['*'], b, ['-']]
    ∧ (∀ (α : Type) (D : DoubleOps α),
        calcLine D [a, ['*'], b, ['-']] = Except.error EvaluationError.StackUnderflow
        ∧ evaluate D (a ++ ['*'] ++ ['-'] ++ b)
            = Except.error EvaluationError.StackUnderflow) := by
  have da := literal_digit_start a ha
  have db := literal_digit_start b hb
  obtain ⟨a1, a2, _⟩ := digit_token_facts a da
  have hrpn : rpnOfTokens [a, ['*'], ['-'], b] = Except.ok [a, ['*'], b, ['-']] := by
    show rpnOfTokens [a, Op.mul.token, Op.sub.token, b] = _
    unfold rpnOfTokens
    rw [rpnLoop_cons_ok _ _ _ _ (rpnStep_number [] [] [] a da),
      rpnLoop_cons_ok _ _ _ _ (rpnStep_operator _ _ false a Op.mul (fun _ => ⟨a1, a2⟩)),
      operatorLoop_nil,
      rpnLoop_cons_ok _ _ _ _
        (rpnStep_operator _ _ false Op.mul.token Op.sub (fun _ => ⟨by decide, by decide⟩)),
      rpnLoop_cons_ok _ _ _ _ (rpnStep_number _ _ _ b db)]
    rfl
  have htext : a ++ ['*'] ++ ['-'] ++ b = [a, ['*'], ['-'], b].flatten := by simp
  have hmem : ∀ t ∈ [a, ['*'], ['-'], b], isLiteral t = true ∨ isSymbolToken t = true := by
    intro t ht
    simp only [List.mem_cons, List.mem_singleton, List.not_mem_nil, or_false] at ht
    rcases ht with rfl | rfl | rfl | rfl
    · exact Or.inl ha
    · exact Or.inr (by decide)
    · exact Or.inr (by decide)
    · exact Or.inl hb
  have hsep : separated [a, ['*'], ['-'], b] = true := by
    have h1 : isLiteral ['*'] = false := by decide
    have h2 : isLiteral ['-'] = false := by decide
    simp [separated, h1, h2]
  have htok := tokens_flatten _ hmem hsep
  have hflt := filterExpression_flatten _ hmem
  have hchk : checkParenthesis [a, ['*'], ['-'], b].flatten = true := by
    apply checkParenthesis_of_checkLoop
    have e : [a, ['*'], ['-'], b].flatten
        = a ++ (Op.mul.symbol :: (Op.sub.symbol :: (b ++ []))) := by
      simp [Op.symbol]
    rw [e, checkLoop_literal a ha, checkLoop_op, checkLoop_op, checkLoop_literal b hb]
    rfl
  have hcalc : ∀ (α : Type) (D : DoubleOps α),
      calcLine D [a, ['*'], b, ['-']] = Except.error EvaluationError.StackUnderflow := by
    intro α D
    have hd : depthRun [a, ['*'], b, ['-']] 0 = none := by
      have h1 : isNumberToken ['*'] = false := by decide
      simp [depthRun, (digit_token_facts a da).2.2.2.2, h1]
    have e := calcLoop_of_depthRun_none D _ [] hd
    simp [calcLine, e]
  refine ⟨?_, ?_, by decide, hrpn, ?_, fun α D => ⟨hcalc α D, ?_⟩⟩
  · intro st h
    cases st with
    | mk res ops m prev => exact rpnStep_unary res ops m prev h
  · intro st h1 h2
    cases st with
    | mk res ops m prev => exact rpnStep_operator res ops m prev Op.sub (fun _ => ⟨h1, h2⟩)
  · rw [htext, toReversePolishNotation, htok, hrpn]
  · rw [htext, evaluate_of_tokens D _ _ hflt hchk htok, hrpn]
    exact hcalc α D

/-- C16, at `2*-3`: converted to `[2, *, 3, -]`, then a stack underflow. -/
theorem minus_binary_after_operator_witness :
    toReversePolishNotation "2*-3".toList = Except.ok [['2'], ['*'], ['3'], ['-']]
    ∧ evaluate symbolicOps "2*-3".toList = Except.error EvaluationError.StackUnderflow :=
  have h := minus_binary_after_operator ['2'] ['3'] (by decide) (by decide)
  ⟨h.2.2.2.2.1, (h.2.2.2.2.2 Sym symbolicOps).2⟩

/-! ### The converter behind the balance check -/

theorem isOperator_iff (t : Str) : isOperator t = true ↔ ∃ op : Op, t = op.token := by
  constructor
  · intro h
    simp only [isOperator, Bool.or_eq_true, beq_iff_eq] at h
    rcases h with (((h | h) | h) | h) | h
    · exact ⟨Op.add, h⟩
    · exact ⟨Op.sub, h⟩
    · exact ⟨Op.div, h⟩
    · exact ⟨Op.mul, h⟩
    · exact ⟨Op.pow, h⟩
  · rintro ⟨op, rfl⟩
    exact (op_token_facts op).2.2.2.2.1

theorem closeParenLoop_ok (ops : StackSHPP Str) (res : List Str)
    (hok : stackEntriesOk ops) (hres : ∀ x ∈ res, outputOk x)
    (hp : 1 ≤ parenCount ops) :
    ∃ (ops2 : StackSHPP Str) (res2 : List Str),
      closeParenLoop ops res = Except.ok (['('] :: ops2, res2)
      ∧ stackEntriesOk ops2 ∧ (∀ x ∈ res2, outputOk x)
      ∧ parenCount ops2 + 1 = parenCount ops := by
  induction ops generalizing res with
  | nil => simp [parenCount] at hp
  | cons t ops ih =>
    rcases hok t (by simp) with rfl | ⟨op, rfl⟩
    · exact ⟨ops, res, closeParenLoop_open ops res, stackEntriesOk_tail _ _ hok, hres,
        by rw [parenCount_paren]⟩
    · rw [closeParenLoop_op]
      rw [parenCount_op] at hp
      obtain ⟨ops2, res2, e, h1, h2, h3⟩ := ih (res ++ [op.token])
        (stackEntriesOk_tail _ _ hok)
        (by
          intro x hx
          rcases List.mem_append.1 hx with hx | hx
          · exact hres x hx
          · simp only [List.mem_singleton] at hx
            exact Or.inr (Or.inr ⟨op, hx⟩))
        hp
      exact ⟨ops2, res2, e, h1, h2, by rw [parenCount_op]; exact h3⟩

theorem operatorLoop_ok (token : Str) (ht : 1 ≤ opPriority (charAt0 token))
    (ops : StackSHPP Str) (res : List Str)
    (hok : stackEntriesOk ops) (hres : ∀ x ∈ res, outputOk x) :
    stackEntriesOk (operatorLoop token ops res).1
    ∧ (∀ x ∈ (operatorLoop token ops res).2, outputOk x)
    ∧ parenCount (operatorLoop token ops res).1 = parenCount ops := by
  induction ops generalizing res with
  | nil => exact ⟨hok, hres, rfl⟩
  | cons t ops ih =>
    rcases hok t (by simp) with rfl | ⟨op, rfl⟩
    · rw [operatorLoop_at_open token ops res ht]
      exact ⟨hok, hres, rfl⟩
    · by_cases hc : opPriority (charAt0 op.token) ≥ opPriority (charAt0 token)
      · rw [operatorLoop, if_pos hc]
        obtain ⟨h1, h2, h3⟩ := ih (QueueSHPP.enqueue res op.token)
          (stackEntriesOk_tail _ _ hok)
          (by
            intro x hx
            rcases List.mem_append.1 hx with hx | hx
            · exact hres x hx
            · simp only [List.mem_singleton] at hx
              exact Or.inr (Or.inr ⟨op, hx⟩))
        exact ⟨h1, h2, by rw [parenCount_op]; exact h3⟩
      · rw [operatorLoop, if_neg hc]
        exact ⟨hok, hres, rfl⟩

/-- One round of the converter never fails when a `)` finds a `(` on the stack;
the stack holds `(` and operators only, the queue numbers and operators only,
and the number of `(` on the stack follows the parentheses. -/
theorem rpnStep_ok (st : RpnState) (t : Str)
    (hok : stackEntriesOk st.operators) (hres : ∀ x ∈ st.result, outputOk x)
    (hp : t = [')'] → 1 ≤ parenCount st.operators) :
    ∃ st1 : RpnState, rpnStep st t = Except.ok st1
      ∧ stackEntriesOk st1.operators ∧ (∀ x ∈ st1.result, outputOk x)
      ∧ tokDepth [t] (parenCount st.operators) = some (parenCount st1.operators) := by
  obtain ⟨res, ops, m, prev⟩ := st
  simp only at hok hres hp
  by_cases hd : isdigit (charAt0 t) = true
  · obtain ⟨_, n2, n3, _⟩ := digit_token_facts t hd
    have htd : tokDepth [t] (parenCount ops) = some (parenCount ops) := by
      simp [tokDepth, n2, n3]
    cases m with
    | true =>
      refine ⟨_, rpnStep_number_minus res ops prev t hd, hok, ?_, htd⟩
      intro x hx
      rcases List.mem_append.1 hx with hx | hx
      · exact hres x hx
      · simp only [List.mem_singleton] at hx
        exact Or.inr (Or.inl ⟨t, hx, hd⟩)
    | false =>
      refine ⟨_, rpnStep_number res ops prev t hd, hok, ?_, htd⟩
      intro x hx
      rcases List.mem_append.1 hx with hx | hx
      · exact hres x hx
      · simp only [List.mem_singleton] at hx
        subst hx
        exact Or.inl hd
  · by_cases hu : (t = ['-'] ∧ prev = []) ∨ (t = ['-'] ∧ prev = ['('])
    · have ht : t = ['-'] := by rcases hu with h | h <;> exact h.1
      subst ht
      have hprev : prev = [] ∨ prev = ['('] := by
        rcases hu with h | h
        · exact Or.inl h.2
        · exact Or.inr h.2
      exact ⟨_, rpnStep_unary res ops m prev hprev, hok, hres, by simp [tokDepth]⟩
    · by_cases ho : t = ['(']
      · subst ho
        refine ⟨_, rpnStep_open res ops m prev,
          stackEntriesOk_cons _ _ (Or.inl rfl) hok, hres, ?_⟩
        simp [tokDepth, parenCount_paren]
      · by_cases hc : t = [')']
        · subst hc
          obtain ⟨ops2, res2, e, h1, h2, h3⟩ := closeParenLoop_ok ops res hok hres (hp rfl)
          refine ⟨⟨res2, ops2, m, [')']⟩, ?_, h1, h2, ?_⟩
          · rw [rpnStep_close, e]; rfl
          · have : 1 ≤ parenCount ops := hp rfl
            simp only [tokDepth, this, if_true]
            rw [if_neg (by decide)]
            simp only [if_true, Option.some.injEq]
            omega
        · have htd : tokDepth [t] (parenCount ops) = some (parenCount ops) := by
            simp [tokDepth, ho, hc]
          by_cases hop : isOperator t = true
          · obtain ⟨op, rfl⟩ := (isOperator_iff t).1 hop
            have hsub : op = Op.sub → prev ≠ [] ∧ prev ≠ ['('] := by
              rintro rfl
              constructor
              · intro hprev; exact hu (Or.inl ⟨rfl, hprev⟩)
              · intro hprev; exact hu (Or.inr ⟨rfl, hprev⟩)
            obtain ⟨h1, h2, h3⟩ := operatorLoop_ok op.token
              (op_token_facts op).2.2.2.2.2 ops res hok hres
            refine ⟨_, rpnStep_operator res ops m prev op hsub,
              stackEntriesOk_cons _ _ (Or.inr ⟨op, rfl⟩) h1, h2, ?_⟩
            rw [htd]
            simp only [parenCount_op, h3]
          · refine ⟨⟨res, ops, m, t⟩, ?_, hok, hres, htd⟩
            unfold rpnStep
            simp only [hd, Bool.false_eq_true, false_and, ite_false]
            rw [if_neg hu, if_neg ho, if_neg hc, if_neg hop]

theorem tokDepth_cons (t : Str) (ts : List Str) (h : Nat) :
    tokDepth (t :: ts) h = (tokDepth [t] h).bind (tokDepth ts) := by
  by_cases h1 : t = ['(']
  · simp [tokDepth, h1]
  · by_cases h2 : t = [')']
    · by_cases h3 : 1 ≤ h
      · simp [tokDepth, h2, h3]
      · simp [tokDepth, h2, h3]
    · simp [tokDepth, h1, h2]

/-- The converter runs through a token sequence whose parentheses are balanced
so far, whatever the other tokens are. -/
theorem rpnLoop_of_tokDepth (ts : List Str) (st : RpnState) (h : Nat)
    (hok : stackEntriesOk st.operators) (hres : ∀ x ∈ st.result, outputOk x)
    (hd : tokDepth ts (parenCount st.operators) = some h) :
    ∃ st1 : RpnState, rpnLoop ts st = Except.ok st1
      ∧ stackEntriesOk st1.operators ∧ (∀ x ∈ st1.result, outputOk x)
      ∧ parenCount st1.operators = h := by
  induction ts generalizing st with
  | nil =>
    simp only [tokDepth, Option.some.injEq] at hd
    exact ⟨st, rfl, hok, hres, hd⟩
  | cons t ts ih =>
    have hp : t = [')'] → 1 ≤ parenCount st.operators := by
      rintro rfl
      by_contra hlt
      simp [tokDepth, hlt] at hd
    obtain ⟨st1, e, h1, h2, h3⟩ := rpnStep_ok st t hok hres hp
    rw [tokDepth_cons, h3] at hd
    obtain ⟨st2, e2, k1, k2, k3⟩ := ih st1 h1 h2 (by simpa using hd)
    exact ⟨st2, by rw [rpnLoop_cons_ok _ _ _ _ e, e2], k1, k2, k3⟩

theorem tokDepth_skip (t : Str) (ts : List Str) (h : Nat)
    (h1 : t ≠ ['(']) (h2 : t ≠ [')']) : tokDepth (t :: ts) h = tokDepth ts h := by
  simp [tokDepth, h1, h2]

theorem tokDepth_append (a b : List Str) (h : Nat) :
    tokDepth (a ++ b) h = (tokDepth a h).bind (tokDepth b) := by
  induction a generalizing h with
  | nil => rfl
  | cons t a ih =>
    rw [List.cons_append, tokDepth_cons, tokDepth_cons t a]
    cases tokDepth [t] h with
    | none => rfl
    | some k => simpa using ih k

theorem scanTokens_some_flush (tok : Str) (dot : Bool) (ch : Char) (rest : Str)
    (h1 : ¬ isdigit ch = true) (h2 : ¬ (ch = '.' ∧ dot = false)) :
    scanTokens (some (tok, dot)) (ch :: rest) = tok :: scanTokens none (ch :: rest) := by
  by_cases hw : ch.isWhitespace = true
  · simp [scanTokens, h1, h2, hw]
  · simp [scanTokens, h1, h2, hw]

theorem not_paren_of_digit (ch : Char) (h : isdigit ch = true) : ch ≠ '(' ∧ ch ≠ ')' := by
  constructor <;> (rintro rfl; revert h; decide)

theorem scannerOk_snoc (tok : Str) (d1 d2 : Bool) (ch : Char)
    (h : scannerOk (some (tok, d1))) : scannerOk (some (tok ++ [ch], d2)) := by
  intro t d e
  simp only [Option.some.injEq, Prod.mk.injEq] at e
  obtain ⟨rfl, _⟩ := e
  have h0 := h tok d1 rfl
  cases tok with
  | nil =>
    have : isdigit (charAt0 []) = false := by decide
    rw [this] at h0; cases h0
  | cons c r => exact h0

/-- The parentheses of the tokens are the parentheses of the text: while the
balance checker keeps its flag, the height of open parentheses along the tokens
is the height of its stack. -/
theorem tokDepth_scanTokens (s : Str) (sc : Option (Str × Bool)) (stk : StackSHPP Char)
    (hsc : scannerOk sc) (h : (checkLoop s (true, stk)).1 = true) :
    tokDepth (scanTokens sc s) stk.length = some (checkLoop s (true, stk)).2.length := by
  induction s generalizing sc stk with
  | nil =>
    cases sc with
    | none => rfl
    | some p =>
      obtain ⟨tok, dot⟩ := p
      obtain ⟨_, n2, n3, _⟩ := digit_token_facts tok (hsc tok dot rfl)
      simp [scanTokens, tokDepth, n2, n3, checkLoop]
  | cons ch rest ih =>
    have hnone : tokDepth (scanTokens none (ch :: rest)) stk.length
        = some (checkLoop (ch :: rest) (true, stk)).2.length := by
      by_cases hd : isdigit ch = true
      · obtain ⟨p1, p2⟩ := not_paren_of_digit ch hd
        have e : checkLoop (ch :: rest) (true, stk) = checkLoop rest (true, stk) := by
          rw [checkLoop, checkStep_other _ _ _ p1 p2]
        rw [e] at h ⊢
        have e2 : scanTokens none (ch :: rest) = scanTokens (some ([ch], false)) rest := by
          simp [scanTokens, hd]
        rw [e2]
        apply ih _ _ _ h
        intro t d e3
        simp only [Option.some.injEq, Prod.mk.injEq] at e3
        obtain ⟨rfl, _⟩ := e3
        exact hd
      · by_cases hw : ch.isWhitespace = true
        · have p1 : ch ≠ '(' := by rintro rfl; revert hw; decide
          have p2 : ch ≠ ')' := by rintro rfl; revert hw; decide
          have e : checkLoop (ch :: rest) (true, stk) = checkLoop rest (true, stk) := by
            rw [checkLoop, checkStep_other _ _ _ p1 p2]
          rw [e] at h ⊢
          have e2 : scanTokens none (ch :: rest) = scanTokens none rest := by
            simp [scanTokens, hd, hw]
          rw [e2]
          exact ih _ _ (by intro t d e3; cases e3) h
        · have e2 : scanTokens none (ch :: rest) = [ch] :: scanTokens none rest := by
            simp [scanTokens, hd, hw]
          have hsn : scannerOk none := by intro t d e3; cases e3
          rw [e2]
          by_cases p1 : ch = '('
          · subst p1
            rw [checkLoop_open] at h ⊢
            have := ih none ('(' :: stk) hsn h
            simpa [tokDepth] using this
          · by_cases p2 : ch = ')'
            · subst p2
              cases stk with
              | nil =>
                rw [checkLoop, checkStep_close_nil, checkLoop_false] at h
                cases h
              | cons x stk1 =>
                rw [checkLoop_close] at h ⊢
                have := ih none stk1 hsn h
                have hne : ([')'] : Str) ≠ ['('] := by decide
                simpa [tokDepth, hne] using this
            · have e : checkLoop (ch :: rest) (true, stk) = checkLoop rest (true, stk) := by
                rw [checkLoop, checkStep_other _ _ _ p1 p2]
              rw [e] at h ⊢
              rw [tokDepth_skip _ _ _ (by simpa using p1) (by simpa using p2)]
              exact ih none stk hsn h
    cases sc with
    | none => exact hnone
    | some p =>
      obtain ⟨tok, dot⟩ := p
      by_cases hd : isdigit ch = true
      · obtain ⟨p1, p2⟩ := not_paren_of_digit ch hd
        have e : checkLoop (ch :: rest) (true, stk) = checkLoop rest (true, stk) := by
          rw [checkLoop, checkStep_other _ _ _ p1 p2]
        rw [e] at h ⊢
        have e2 : scanTokens (some (tok, dot)) (ch :: rest)
            = scanTokens (some (tok ++ [ch], dot)) rest := by
          simp [scanTokens, hd]
        rw [e2]
        exact ih _ _ (scannerOk_snoc tok dot dot ch hsc) h
      · by_cases hp : ch = '.' ∧ dot = false
        · obtain ⟨rfl, rfl⟩ := hp
          have e : checkLoop ('.' :: rest) (true, stk) = checkLoop rest (true, stk) := by
            rw [checkLoop, checkStep_other _ _ _ (by decide) (by decide)]
          rw [e] at h ⊢
          have e2 : scanTokens (some (tok, false)) ('.' :: rest)
              = scanTokens (some (tok ++ ['.'], true)) rest := by
            have hd1 : isdigit '.' = false := by decide
            simp [scanTokens, hd1]
          rw [e2]
          exact ih _ _ (scannerOk_snoc tok false true '.' hsc) h
        · obtain ⟨_, n2, n3, _⟩ := digit_token_facts tok (hsc tok dot rfl)
          rw [scanTokens_some_flush tok dot ch rest hd hp, tokDepth_skip _ _ _ n2 n3]
          exact hnone

/-- Behind the balance check the token loop of the converter ends without error,
with no `(` left on the operator stack. -/
theorem rpnLoop_after_balance_check (s : Str) (h : checkParenthesis s = true) :
    tokDepth (TokenScanner.tokens s) 0 = some 0
    ∧ ∃ st : RpnState, rpnLoop (TokenScanner.tokens s) ⟨[], [], false, []⟩ = Except.ok st
      ∧ stackEntriesOk st.operators ∧ (∀ x ∈ st.result, outputOk x)
      ∧ parenCount st.operators = 0 := by
  have h1 : (checkLoop s (true, [])).1 = true := by
    by_cases he : (checkLoop s (true, [])).2.isEmpty = true
    · simpa [checkParenthesis, he] using h
    · simp [checkParenthesis, he] at h
  have h2 : (checkLoop s (true, [])).2 = [] := by
    by_cases he : (checkLoop s (true, [])).2.isEmpty = true
    · exact List.isEmpty_iff.1 he
    · simp [checkParenthesis, he] at h
  have hd : tokDepth (TokenScanner.tokens s) 0 = some 0 := by
    have := tokDepth_scanTokens s none [] (by intro t d e; cases e) h1
    rw [h2] at this
    exact this
  refine ⟨hd, ?_⟩
  exact rpnLoop_of_tokDepth _ ⟨[], [], false, []⟩ 0
    (by intro x hx; cases hx) (by intro x hx; cases hx) hd

theorem outputOk_not_paren (x : Str) (h : outputOk x) : x ≠ ['('] ∧ x ≠ [')'] := by
  rcases h with h | ⟨n, rfl, _⟩ | ⟨op, rfl⟩
  · obtain ⟨_, h2, h3, _⟩ := digit_token_facts x h
    exact ⟨h2, h3⟩
  · exact ⟨by simp, by simp⟩
  · exact ⟨(op_token_facts op).2.2.1, (op_token_facts op).2.2.2.1⟩

theorem outputOk_number_or_op (x : Str) (h : outputOk x) :
    isNumberToken x = true ∨ ∃ op : Op, x = op.token := by
  rcases h with h | ⟨n, rfl, hn⟩ | h
  · exact Or.inl (digit_token_facts x h).2.2.2.2
  · exact Or.inl (isNumberToken_minus n (digit_token_facts n hn).1)
  · exact Or.inr h

/-- C14: the stack underflow of the converter is unreachable behind the balance
check. For every sanitized string accepted by `checkParenthesis`,
`toReversePolishNotation` returns a postfix sequence; and at every `)` token the
scan so far has left a `(` marker on the operator stack, so that the loop at `)`
stops at it without reading the top of an empty stack and the `pop` after the
loop removes it. -/
theorem toReversePolishNotation_after_balance_check (raw : Str)
    (h : checkParenthesis (filterExpression raw) = true) :
    (∃ q : List Str, toReversePolishNotation (filterExpression raw) = Except.ok q)
    ∧ ∀ pre post : List Str,
        TokenScanner.tokens (filterExpression raw) = pre ++ [')'] :: post →
        ∃ st : RpnState, rpnLoop pre ⟨[], [], false, []⟩ = Except.ok st
          ∧ ['('] ∈ st.operators
          ∧ ∃ (ops : StackSHPP Str) (res : List Str) (st1 : RpnState),
              closeParenLoop st.operators st.result = Except.ok (['('] :: ops, res)
              ∧ rpnStep st [')'] = Except.ok st1 ∧ st1.operators = ops := by
  obtain ⟨hd, st, e, _, _, _⟩ := rpnLoop_after_balance_check _ h
  constructor
  · exact ⟨drainLoop st.operators st.result, by simp [toReversePolishNotation, rpnOfTokens, e]⟩
  · intro pre post hsplit
    rw [hsplit, tokDepth_append] at hd
    cases hpre : tokDepth pre 0 with
    | none => rw [hpre] at hd; cases hd
    | some k =>
      rw [hpre] at hd
      have hk : 1 ≤ k := by
        by_contra hlt
        simp [tokDepth, hlt] at hd
      obtain ⟨st0, e0, k1, k2, k3⟩ := rpnLoop_of_tokDepth pre ⟨[], [], false, []⟩ k
        (by intro x hx; cases hx) (by intro x hx; cases hx) hpre
      have hpc : 1 ≤ parenCount st0.operators := by omega
      obtain ⟨ops, res, ec, _, _, _⟩ := closeParenLoop_ok st0.operators st0.result k1 k2 hpc
      refine ⟨st0, e0, ?_, ops, res, ⟨res, ops, st0.minusTrigger, [')']⟩, ec, ?_, rfl⟩
      · exact List.count_pos_iff.1 hpc
      · obtain ⟨r0, o0, m0, p0⟩ := st0
        simp only at ec
        rw [rpnStep_close, ec]
        rfl

/-- C14, at the sanitized form of `2 * (3 + 4)`. -/
theorem toReversePolishNotation_after_balance_check_witness :
    checkParenthesis (filterExpression "2 * (3 + 4)".toList) = true
    ∧ ∃ q : List Str,
        toReversePolishNotation (filterExpression "2 * (3 + 4)".toList) = Except.ok q :=
  ⟨by decide, (toReversePolishNotation_after_balance_check "2 * (3 + 4)".toList (by decide)).1⟩

/-- C15: for every sanitized string accepted by `checkParenthesis`, no
parenthesis is on the operator stack after the scan, and the postfix sequence
returned by `toReversePolishNotation` holds no `(` and no `)`: each element is a
number token, a number token with `-` in front, or one of the five operators.
So every token that `calcLine` does not read as a number, and passes to
`doOperation`, is one of `+ - * / ^`. -/
theorem toReversePolishNotation_output_tokens (raw : Str)
    (h : checkParenthesis (filterExpression raw) = true) :
    ∃ (st : RpnState) (q : List Str),
      rpnLoop (TokenScanner.tokens (filterExpression raw)) ⟨[], [], false, []⟩
        = Except.ok st
      ∧ ['('] ∉ st.operators ∧ [')'] ∉ st.operators
      ∧ toReversePolishNotation (filterExpression raw) = Except.ok q
      ∧ (∀ x ∈ q, x ≠ ['('] ∧ x ≠ [')'] ∧ outputOk x)
      ∧ (∀ x ∈ q, isNumberToken x = false → ∃ op : Op, x = op.token) := by
  obtain ⟨_, st, e, k1, k2, k3⟩ := rpnLoop_after_balance_check _ h
  have hno : ['('] ∉ st.operators := List.count_eq_zero.1 k3
  have hnc : [')'] ∉ st.operators := by
    intro hm
    rcases k1 _ hm with hx | ⟨op, hx⟩
    · revert hx; decide
    · exact (op_token_facts op).2.2.2.1 hx.symm
  have hq : ∀ x ∈ drainLoop st.operators st.result, outputOk x := by
    intro x hx
    rw [drainLoop_eq] at hx
    rcases List.mem_append.1 hx with hx | hx
    · exact k2 x hx
    · rcases k1 x hx with rfl | hop
      · exact absurd hx hno
      · exact Or.inr (Or.inr hop)
  refine ⟨st, drainLoop st.operators st.result, e, hno, hnc, ?_, ?_, ?_⟩
  · simp [toReversePolishNotation, rpnOfTokens, e]
  · intro x hx
    exact ⟨(outputOk_not_paren x (hq x hx)).1, (outputOk_not_paren x (hq x hx)).2, hq x hx⟩
  · intro x hx hn
    rcases outputOk_number_or_op x (hq x hx) with h1 | h1
    · rw [hn] at h1; cases h1
    · exact h1

/-- C15, at the sanitized form of `-2 * (8 / 4) ^ 2`: the postfix sequence is
`[-2, 8, 4, /, 2, ^, *]`. -/
theorem toReversePolishNotation_output_tokens_witness :
    checkParenthesis (filterExpression "-2 * (8 / 4) ^ 2".toList) = true
    ∧ toReversePolishNotation (filterExpression "-2 * (8 / 4) ^ 2".toList)
        = Except.ok [['-', '2'], ['8'], ['4'], ['/'], ['2'], ['^'], ['*']]
    ∧ ∃ (st : RpnState) (q : List Str),
        rpnLoop (TokenScanner.tokens (filterExpression "-2 * (8 / 4) ^ 2".toList))
          ⟨[], [], false, []⟩ = Except.ok st
        ∧ toReversePolishNotation (filterExpression "-2 * (8 / 4) ^ 2".toList) = Except.ok q
        ∧ ∀ x ∈ q, x ≠ ['('] ∧ x ≠ [')'] :=
  ⟨by decide, rfl,
   (toReversePolishNotation_output_tokens "-2 * (8 / 4) ^ 2".toList (by decide)).elim
     fun st hst => hst.elim fun q hq =>
       ⟨st, q, hq.1, hq.2.2.2.1, fun x hx => ⟨(hq.2.2.2.2.1 x hx).1, (hq.2.2.2.2.1 x hx).2.1⟩⟩⟩

/-! ### The operands keep their order -/

theorem operatorLoop_moves (token : Str) (ops : StackSHPP Str) (res : List Str) :
    ∃ moved : List Str, (operatorLoop token ops res).2 = res ++ moved
      ∧ ops = moved ++ (operatorLoop token ops res).1 := by
  induction ops generalizing res with
  | nil => exact ⟨[], by simp [operatorLoop], rfl⟩
  | cons t ops ih =>
    by_cases hc : opPriority (charAt0 t) ≥ opPriority (charAt0 token)
    · rw [operatorLoop, if_pos hc]
      obtain ⟨moved, e1, e2⟩ := ih (QueueSHPP.enqueue res t)
      refine ⟨t :: moved, ?_, ?_⟩
      · rw [e1]; simp [QueueSHPP.enqueue]
      · rw [List.cons_append, ← e2]
    · rw [operatorLoop, if_neg hc]
      exact ⟨[], by simp, rfl⟩

theorem closeParenLoop_moves (ops ops1 : StackSHPP Str) (res res1 : List Str)
    (h : closeParenLoop ops res = Except.ok (ops1, res1)) :
    ∃ moved : List Str, res1 = res ++ moved ∧ ops = moved ++ ops1 := by
  induction ops generalizing res with
  | nil => simp [closeParenLoop] at h
  | cons t ops ih =>
    by_cases hc : t ≠ ['(']
    · rw [closeParenLoop, if_pos hc] at h
      obtain ⟨moved, e1, e2⟩ := ih (QueueSHPP.enqueue res t) h
      refine ⟨t :: moved, ?_, ?_⟩
      · rw [e1]; simp [QueueSHPP.enqueue]
      · rw [List.cons_append, ← e2]
    · rw [closeParenLoop, if_neg hc] at h
      simp only [Except.ok.injEq, Prod.mk.injEq] at h
      exact ⟨[], by simp [h.2], by simp [h.1]⟩

theorem filter_append_moved (res moved : List Str)
    (h : ∀ x ∈ moved, isNumberToken x = false) :
    (res ++ moved).filter isNumberToken = res.filter isNumberToken := by
  rw [List.filter_append]
  have : moved.filter isNumberToken = [] := by
    rw [List.filter_eq_nil_iff]
    intro a ha
    rw [h a ha]
    exact Bool.false_ne_true
  rw [this, List.append_nil]

/-- One round of the converter adds to the numbers of the queue the token just
read when it is a number, with `-` in front exactly when the flag was set, and
nothing otherwise; no number is ever on the operator stack. -/
theorem rpnStep_numbers (st st1 : RpnState) (t : Str)
    (e : rpnStep st t = Except.ok st1)
    (hs : ∀ x ∈ st.operators, isNumberToken x = false) :
    (∀ x ∈ st1.operators, isNumberToken x = false)
    ∧ st1.result.filter isNumberToken = st.result.filter isNumberToken
        ++ (if isdigit (charAt0 t) = true
            then [if st.minusTrigger = true then '-' :: t else t] else []) := by
  obtain ⟨res, ops, m, prev⟩ := st
  simp only at hs ⊢
  by_cases hd : isdigit (charAt0 t) = true
  · obtain ⟨n1, _, _, _, n5⟩ := digit_token_facts t hd
    cases m with
    | true =>
      rw [rpnStep_number_minus res ops prev t hd] at e
      simp only [Except.ok.injEq] at e
      subst e
      refine ⟨hs, ?_⟩
      simp [List.filter_append, hd, isNumberToken_minus t n1]
    | false =>
      rw [rpnStep_number res ops prev t hd] at e
      simp only [Except.ok.injEq] at e
      subst e
      refine ⟨hs, ?_⟩
      simp [List.filter_append, hd, n5]
  · simp only [hd, Bool.false_eq_true, if_false, List.append_nil]
    by_cases hu : (t = ['-'] ∧ prev = []) ∨ (t = ['-'] ∧ prev = ['('])
    · have ht : t = ['-'] := by rcases hu with h | h <;> exact h.1
      subst ht
      have hprev : prev = [] ∨ prev = ['('] := by
        rcases hu with h | h
        · exact Or.inl h.2
        · exact Or.inr h.2
      rw [rpnStep_unary res ops m prev hprev] at e
      simp only [Except.ok.injEq] at e
      subst e
      exact ⟨hs, rfl⟩
    · by_cases ho : t = ['(']
      · subst ho
        rw [rpnStep_open] at e
        simp only [Except.ok.injEq] at e
        subst e
        refine ⟨?_, rfl⟩
        intro x hx
        rcases List.mem_cons.1 hx with rfl | hx
        · decide
        · exact hs x hx
      · by_cases hc : t = [')']
        · subst hc
          rw [rpnStep_close] at e
          cases hcl : closeParenLoop ops res with
          | error err => rw [hcl] at e; cases e
          | ok p =>
            obtain ⟨ops0, res0⟩ := p
            rw [hcl] at e
            obtain ⟨moved, e1, e2⟩ := closeParenLoop_moves ops ops0 res res0 hcl
            cases ops0 with
            | nil => cases e
            | cons x ops1 =>
              simp only [StackSHPP.pop, Except.ok.injEq] at e
              subst e
              simp only
              constructor
              · intro y hy
                apply hs
                rw [e2]
                exact List.mem_append_right _ (List.mem_cons_of_mem _ hy)
              · rw [e1]
                apply filter_append_moved
                intro y hy
                apply hs
                rw [e2]
                exact List.mem_append_left _ hy
        · by_cases hop : isOperator t = true
          · obtain ⟨op, rfl⟩ := (isOperator_iff t).1 hop
            have hsub : op = Op.sub → prev ≠ [] ∧ prev ≠ ['('] := by
              rintro rfl
              constructor
              · intro hprev; exact hu (Or.inl ⟨rfl, hprev⟩)
              · intro hprev; exact hu (Or.inr ⟨rfl, hprev⟩)
            rw [rpnStep_operator res ops m prev op hsub] at e
            simp only [Except.ok.injEq] at e
            subst e
            obtain ⟨moved, e1, e2⟩ := operatorLoop_moves op.token ops res
            simp only
            constructor
            · intro y hy
              rcases List.mem_cons.1 hy with rfl | hy
              · exact isNumberToken_op op
              · apply hs
                rw [e2]
                exact List.mem_append_right _ hy
            · rw [e1]
              apply filter_append_moved
              intro y hy
              apply hs
              rw [e2]
              exact List.mem_append_left _ hy
          · unfold rpnStep at e
            simp only [hd, Bool.false_eq_true, false_and, ite_false] at e
            rw [if_neg hu, if_neg ho, if_neg hc, if_neg hop] at e
            simp only [Except.ok.injEq] at e
            subst e
            exact ⟨hs, rfl⟩

theorem rpnLoop_numbers (ts : List Str) (st st1 : RpnState)
    (e : rpnLoop ts st = Except.ok st1)
    (hs : ∀ x ∈ st.operators, isNumberToken x = false) :
    (∀ x ∈ st1.operators, isNumberToken x = false)
    ∧ ∃ outs : List Str,
        st1.result.filter isNumberToken = st.result.filter isNumberToken ++ outs
        ∧ List.Forall₂ signedCopy outs (numberTokens ts) := by
  induction ts generalizing st with
  | nil =>
    simp only [rpnLoop, Except.ok.injEq] at e
    subst e
    exact ⟨hs, [], by simp, by simp [numberTokens]⟩
  | cons t ts ih =>
    cases hstep : rpnStep st t with
    | error err => simp [rpnLoop, hstep] at e
    | ok st0 =>
      rw [rpnLoop_cons_ok _ _ _ _ hstep] at e
      obtain ⟨h1, h2⟩ := rpnStep_numbers st st0 t hstep hs
      obtain ⟨k1, outs, k2, k3⟩ := ih st0 e h1
      refine ⟨k1, ?_⟩
      by_cases hd : isdigit (charAt0 t) = true
      · refine ⟨(if st.minusTrigger = true then '-' :: t else t) :: outs, ?_, ?_⟩
        · rw [k2, h2]; simp [hd]
        · have : numberTokens (t :: ts) = t :: numberTokens ts := by
            simp [numberTokens, hd]
          rw [this]
          refine List.Forall₂.cons ?_ k3
          by_cases hm : st.minusTrigger = true
          · rw [if_pos hm]; exact Or.inr rfl
          · rw [if_neg hm]; exact Or.inl rfl
      · refine ⟨outs, ?_, ?_⟩
        · rw [k2, h2]; simp [hd]
        · have : numberTokens (t :: ts) = numberTokens ts := by
            simp [numberTokens, hd]
          rw [this]; exact k3

/-- C19: the converter never reorders, drops or duplicates operands. Whenever
`toReversePolishNotation` completes on a token sequence, the number tokens of
the postfix sequence, in order, are the number tokens of the input, in order,
each unchanged or with `-` in front; and a number is emitted with `-` in front
exactly when the pending-unary-minus flag was set, which clears the flag. -/
theorem toReversePolishNotation_keeps_operands (ts q : List Str)
    (h : rpnOfTokens ts = Except.ok q) :
    List.Forall₂ signedCopy (q.filter isNumberToken) (numberTokens ts)
    ∧ (q.filter isNumberToken).length = (numberTokens ts).length
    ∧ (∀ (st : RpnState) (n : Str), isdigit (charAt0 n) = true →
        rpnStep st n = Except.ok
          ⟨st.result ++ [if st.minusTrigger = true then '-' :: n else n],
            st.operators, false, n⟩) := by
  have hF : List.Forall₂ signedCopy (q.filter isNumberToken) (numberTokens ts) := by
    unfold rpnOfTokens at h
    cases hl : rpnLoop ts ⟨[], [], false, []⟩ with
    | error err => rw [hl] at h; cases h
    | ok st =>
      rw [hl] at h
      simp only [Except.ok.injEq] at h
      obtain ⟨k1, outs, k2, k3⟩ := rpnLoop_numbers ts _ st hl (by intro x hx; cases hx)
      rw [← h, drainLoop_eq, filter_append_moved _ _ k1, k2]
      simpa using k3
  refine ⟨hF, hF.length_eq, ?_⟩
  intro st n hn
  obtain ⟨res, ops, m, prev⟩ := st
  cases m with
  | true => simpa using rpnStep_number_minus res ops prev n hn
  | false => simpa using rpnStep_number res ops prev n hn

/-- C19, at `-2*(8/4)^2`: the numbers `-2, 8, 4, 2` of the postfix sequence
against the numbers `2, 8, 4, 2` of the input. -/
theorem toReversePolishNotation_keeps_operands_witness :
    rpnOfTokens (TokenScanner.tokens "-2*(8/4)^2".toList)
      = Except.ok [['-', '2'], ['8'], ['4'], ['/'], ['2'], ['^'], ['*']]
    ∧ List.Forall₂ signedCopy [['-', '2'], ['8'], ['4'], ['2']] [['2'], ['8'], ['4'], ['2']] :=
  ⟨rfl,
   (toReversePolishNotation_keeps_operands (TokenScanner.tokens "-2*(8/4)^2".toList)
      [['-', '2'], ['8'], ['4'], ['/'], ['2'], ['^'], ['*']] rfl).1⟩

/-! ### Tokens of a sanitized string -/

theorem literalTail_snoc_digit (d : Bool) (s : Str) (ch : Char)
    (h : literalTail d s = true) (hd : isdigit ch = true) :
    literalTail d (s ++ [ch]) = true := by
  induction s generalizing d with
  | nil => simp [literalTail, hd]
  | cons c s ih =>
    by_cases hc : isdigit c = true
    · simp only [List.cons_append, literalTail, hc, ite_true] at h ⊢
      exact ih d h
    · by_cases hp : c = '.' ∧ d = false
      · have h2 : literalTail true s = true := by simpa [literalTail, hc, hp] using h
        have := ih true h2
        simpa [literalTail, hc, hp] using this
      · simp [literalTail, hc, hp] at h

theorem literalTail_snoc_dot (s : Str) (h : literalTail false s = true)
    (hn : '.' ∉ s) : literalTail false (s ++ ['.']) = true := by
  induction s with
  | nil => decide
  | cons c s ih =>
    have hc1 : c ≠ '.' := fun e => hn (by simp [e])
    have hn1 : '.' ∉ s := fun e => hn (List.mem_cons_of_mem _ e)
    by_cases hc : isdigit c = true
    · simp only [List.cons_append, literalTail, hc, ite_true] at h ⊢
      exact ih h hn1
    · simp [literalTail, hc, hc1] at h

theorem isLiteral_snoc_digit (tok : Str) (ch : Char) (h : isLiteral tok = true)
    (hd : isdigit ch = true) : isLiteral (tok ++ [ch]) = true := by
  cases tok with
  | nil => simp [isLiteral] at h
  | cons c s =>
    simp only [isLiteral, Bool.and_eq_true, List.cons_append] at h ⊢
    exact ⟨h.1, literalTail_snoc_digit false s ch h.2 hd⟩

theorem isLiteral_snoc_dot (tok : Str) (h : isLiteral tok = true) (hn : '.' ∉ tok) :
    isLiteral (tok ++ ['.']) = true := by
  cases tok with
  | nil => simp [isLiteral] at h
  | cons c s =>
    simp only [isLiteral, Bool.and_eq_true, List.cons_append] at h ⊢
    exact ⟨h.1, literalTail_snoc_dot s h.2 (fun e => hn (List.mem_cons_of_mem _ e))⟩

theorem allowed_not_digit (ch : Char) (ha : allowedChar ch) (hd : ¬ isdigit ch = true) :
    ch.isWhitespace = false
    ∧ (ch = '.' ∨ ch ∈ ['+', '-', '/', '*', '^', '(', ')']) := by
  rcases ha with h | h
  · exact absurd ((isdigit_iff_mem ch).2 h) hd
  · simp only [List.mem_cons, List.mem_singleton, List.not_mem_nil, or_false] at h
    rcases h with h | h | h | h | h | h | h | h <;> subst h <;> exact ⟨by decide, by decide⟩

theorem maximalMunch_cons_symbol (t : Str) (ts : List Str) (ht : isLiteral t = false)
    (h : maximalMunch ts = true) : maximalMunch (t :: ts) = true := by
  cases ts with
  | nil => rfl
  | cons b rest => simp [maximalMunch, ht, h]

/-- The scanner on a sanitized text: the tokens, written one after the other,
are the text; each token is a number literal, an operator, a parenthesis or a
stray decimal point; and number tokens are as long as they can be. -/
theorem scanTokens_sanitized (s : Str) (hs : ∀ c ∈ s, allowedChar c)
    (sc : Option (Str × Bool)) (hsc : scannerInLiteral sc) :
    (scanTokens sc s).flatten = pendingToken sc ++ s
    ∧ (∀ t ∈ scanTokens sc s, isLiteral t = true ∨ isSymbolToken t = true ∨ t = ['.'])
    ∧ maximalMunch (scanTokens sc s) = true
    ∧ (∀ (tok : Str) (dot : Bool), sc = some (tok, dot) →
        ∃ more rest, scanTokens sc s = (tok ++ more) :: rest
          ∧ (∀ c ∈ more, isdigit c = true ∨ c = '.')) := by
  induction s generalizing sc with
  | nil =>
    cases sc with
    | none =>
      refine ⟨rfl, ?_, rfl, ?_⟩
      · intro t ht; cases ht
      · intro _ _ e; cases e
    | some p =>
      obtain ⟨tok, dot⟩ := p
      refine ⟨by simp [scanTokens, pendingToken], ?_, rfl, ?_⟩
      · intro t ht
        simp only [scanTokens, List.mem_singleton] at ht
        rw [ht]
        exact Or.inl (hsc tok dot rfl).1
      · intro tok1 dot1 e
        simp only [Option.some.injEq, Prod.mk.injEq] at e
        obtain ⟨rfl, rfl⟩ := e
        exact ⟨[], [], by simp [scanTokens], by intro c hc; cases hc⟩
  | cons ch rest ih =>
    have hrest : ∀ c ∈ rest, allowedChar c := fun c hc => hs c (List.mem_cons_of_mem _ hc)
    have hch : allowedChar ch := hs ch (by simp)
    have hnoneInv : scannerInLiteral none := by intro _ _ e; cases e
    -- the scanner between two tokens
    have hnone : (scanTokens none (ch :: rest)).flatten = ch :: rest
        ∧ (∀ t ∈ scanTokens none (ch :: rest),
            isLiteral t = true ∨ isSymbolToken t = true ∨ t = ['.'])
        ∧ maximalMunch (scanTokens none (ch :: rest)) = true
        ∧ (¬ isdigit ch = true →
            ∃ rest1, scanTokens none (ch :: rest) = [ch] :: rest1) := by
      by_cases hd : isdigit ch = true
      · have e2 : scanTokens none (ch :: rest) = scanTokens (some ([ch], false)) rest := by
          simp [scanTokens, hd]
        have hinv : scannerInLiteral (some ([ch], false)) := by
          intro t d e
          simp only [Option.some.injEq, Prod.mk.injEq] at e
          obtain ⟨rfl, rfl⟩ := e
          refine ⟨by simp [isLiteral, literalTail, hd], ?_⟩
          constructor
          · intro h; cases h
          · intro h
            simp only [List.mem_singleton] at h
            subst h
            revert hd; decide
        obtain ⟨i1, i2, i3, _⟩ := ih hrest _ hinv
        rw [e2]
        exact ⟨by simpa [pendingToken] using i1, i2, i3, fun h => absurd hd h⟩
      · obtain ⟨hw, hsym⟩ := allowed_not_digit ch hch hd
        have e2 : scanTokens none (ch :: rest) = [ch] :: scanTokens none rest := by
          simp [scanTokens, hd, hw]
        obtain ⟨i1, i2, i3, _⟩ := ih hrest none hnoneInv
        rw [e2]
        have hnl : isLiteral [ch] = false := by
          simp only [isLiteral, Bool.and_eq_false_iff]
          exact Or.inl (by simpa using hd)
        refine ⟨by simpa [pendingToken] using i1, ?_,
          maximalMunch_cons_symbol _ _ hnl i3, fun _ => ⟨_, rfl⟩⟩
        intro t ht
        rcases List.mem_cons.1 ht with rfl | ht
        · rcases hsym with h | h
          · exact Or.inr (Or.inr (by rw [h]))
          · exact Or.inr (Or.inl ((isSymbolToken_iff _).2 ⟨ch, rfl, h⟩))
        · exact i2 t ht
    cases sc with
    | none =>
      exact ⟨by simpa [pendingToken] using hnone.1, hnone.2.1, hnone.2.2.1,
        by intro _ _ e; cases e⟩
    | some p =>
      obtain ⟨tok, dot⟩ := p
      obtain ⟨hlit, hdot⟩ := hsc tok dot rfl
      have hmore : ∀ (tok1 : Str) (dot1 : Bool), some (tok, dot) = some (tok1, dot1) →
          ∀ (d2 : Bool) (c : Char), (isdigit c = true ∨ c = '.') →
          (∃ more rest1, scanTokens (some (tok ++ [c], d2)) rest = (tok ++ [c] ++ more) :: rest1
            ∧ ∀ x ∈ more, isdigit x = true ∨ x = '.') →
          ∃ more rest1, scanTokens (some (tok ++ [c], d2)) rest = (tok1 ++ more) :: rest1
            ∧ ∀ x ∈ more, isdigit x = true ∨ x = '.' := by
        intro tok1 dot1 e d2 c hc ⟨more, rest1, e1, e3⟩
        simp only [Option.some.injEq, Prod.mk.injEq] at e
        obtain ⟨rfl, rfl⟩ := e
        refine ⟨c :: more, rest1, by rw [e1]; simp, ?_⟩
        intro x hx
        rcases List.mem_cons.1 hx with rfl | hx
        · exact hc
        · exact e3 x hx
      by_cases hd : isdigit ch = true
      · have e2 : scanTokens (some (tok, dot)) (ch :: rest)
            = scanTokens (some (tok ++ [ch], dot)) rest := by
          simp [scanTokens, hd]
        have hinv : scannerInLiteral (some (tok ++ [ch], dot)) := by
          intro t d e
          simp only [Option.some.injEq, Prod.mk.injEq] at e
          obtain ⟨rfl, rfl⟩ := e
          refine ⟨isLiteral_snoc_digit tok ch hlit hd, ?_⟩
          rw [hdot]
          have : ch ≠ '.' := by rintro rfl; revert hd; decide
          simp [this.symm]
        obtain ⟨i1, i2, i3, i4⟩ := ih hrest _ hinv
        rw [e2]
        refine ⟨by simpa [pendingToken] using i1, i2, i3, ?_⟩
        intro tok1 dot1 e
        exact hmore tok1 dot1 e dot ch (Or.inl hd) (i4 _ _ rfl)
      · by_cases hp : ch = '.' ∧ dot = false
        · obtain ⟨rfl, rfl⟩ := hp
          have e2 : scanTokens (some (tok, false)) ('.' :: rest)
              = scanTokens (some (tok ++ ['.'], true)) rest := by
            have hd1 : isdigit '.' = false := by decide
            simp [scanTokens, hd1]
          have hnd : '.' ∉ tok := by
            intro hm
            have := hdot.2 hm
            cases this
          have hinv : scannerInLiteral (some (tok ++ ['.'], true)) := by
            intro t d e
            simp only [Option.some.injEq, Prod.mk.injEq] at e
            obtain ⟨rfl, rfl⟩ := e
            exact ⟨isLiteral_snoc_dot tok hlit hnd, by simp⟩
          obtain ⟨i1, i2, i3, i4⟩ := ih hrest _ hinv
          rw [e2]
          refine ⟨by simpa [pendingToken] using i1, i2, i3, ?_⟩
          intro tok1 dot1 e
          exact hmore tok1 dot1 e true '.' (Or.inr rfl) (i4 _ _ rfl)
        · rw [scanTokens_some_flush tok dot ch rest hd hp]
          obtain ⟨j1, j2, j3, j4⟩ := hnone
          obtain ⟨rest1, e5⟩ := j4 hd
          refine ⟨by simp [pendingToken, j1], ?_, ?_, ?_⟩
          · intro t ht
            rcases List.mem_cons.1 ht with rfl | ht
            · exact Or.inl hlit
            · exact j2 t ht
          · rw [e5] at j3 ⊢
            have hb : isdigit (charAt0 [ch]) = false := by
              simpa [charAt0] using hd
            have hdotin : ([ch] : Str) = ['.'] → '.' ∈ tok := by
              intro e
              have hc : ch = '.' := by simpa using e
              have hdt : dot = true := by
                cases dot with
                | true => rfl
                | false => exact absurd ⟨hc, rfl⟩ hp
              exact hdot.1 hdt
            have hcont : (([ch] : Str) != ['.'] || tok.contains '.') = true := by
              by_cases e : ([ch] : Str) = ['.']
              · have := hdotin e
                simp [this]
              · simp [e]
            simp only [maximalMunch, hlit, Bool.not_true, Bool.false_or, hb, Bool.not_false,
              Bool.true_and, hcont, j3, Bool.and_self]
          · intro tok1 dot1 e
            simp only [Option.some.injEq, Prod.mk.injEq] at e
            obtain ⟨rfl, rfl⟩ := e
            exact ⟨[], scanTokens none (ch :: rest), by simp, by intro c hc; cases hc⟩

/-- C18: tokenizing a sanitized string is maximal munch. The tokens, written one
after the other, reproduce the string; every token is a number literal (digits
with at most one decimal point, starting with a digit), one of `+ - * / ^ ( )`
alone, or a decimal point that no number could take; a number token is never
followed by a digit, nor by a decimal point unless it has one already.
Conversely every sequence of number literals and one-character symbols, no two
literals side by side, is what the scanner returns on its text; so `12.5+3`
gives `[12.5, +, 3]`. -/
theorem tokens_maximal_munch (s : Str) (hs : ∀ c ∈ s, allowedChar c) :
    (TokenScanner.tokens s).flatten = s
    ∧ (∀ t ∈ TokenScanner.tokens s,
        isLiteral t = true ∨ isSymbolToken t = true ∨ t = ['.'])
    ∧ maximalMunch (TokenScanner.tokens s) = true
    ∧ (∀ ts : List Str, (∀ t ∈ ts, isLiteral t = true ∨ isSymbolToken t = true) →
        separated ts = true → TokenScanner.tokens ts.flatten = ts)
    ∧ TokenScanner.tokens "12.5+3".toList = ["12.5".toList, ['+'], ['3']]
    ∧ TokenScanner.tokens "12.5+3".toList
        ≠ [['1'], ['2'], ['.'], ['5'], ['+'], ['3']] := by
  obtain ⟨h1, h2, h3, _⟩ := scanTokens_sanitized s hs none (by intro _ _ e; cases e)
  exact ⟨by simpa [pendingToken] using h1, h2, h3, tokens_flatten, by decide, by decide⟩

/-- C18, at the sanitized strings `12.5+3` and `1.2.3`. -/
theorem tokens_maximal_munch_witness :
    (∀ c ∈ "1.2.3".toList, allowedChar c)
    ∧ TokenScanner.tokens "1.2.3".toList = ["1.2".toList, ['.'], ['3']]
    ∧ (TokenScanner.tokens "1.2.3".toList).flatten = "1.2.3".toList
    ∧ (TokenScanner.tokens "12.5+3".toList).flatten = "12.5+3".toList :=
  ⟨by decide, by decide, (tokens_maximal_munch "1.2.3".toList (by decide)).1,
   (tokens_maximal_munch "12.5+3".toList (by decide)).1⟩

/-! ### What remains on the operand stack -/

/-- The converter on the tokens of a well-formed expression gives a postfix
sequence on which the depth counter ends at 1. -/
theorem rpnOfTokens_wf (e : WfExpr) (h : ∀ n ∈ e.literals, isLiteral n = true) :
    ∃ q : List Str, rpnOfTokens e.tokens = Except.ok q ∧ depthRun q 0 = some 1 := by
  obtain ⟨res1, ops1, prev1, e1, _, _, hh, hc⟩ :=
    converts_wf e h [] (Or.inl rfl) [] [] [] ⟨by intro x hx; simp at hx, rfl⟩
  rw [List.append_nil] at e1
  refine ⟨res1 ++ ops1, by simp [rpnOfTokens, e1, rpnLoop, drainLoop_eq], ?_⟩
  exact depthRun_drain ops1 res1 hh (by simpa [parenCount] using hc)

theorem calcLine_eq_top {α : Type} (D : DoubleOps α) (line : List Str) (v : α) :
    calcLine D line = Except.ok v ↔
      ∃ below : StackSHPP α, calcLoop D line [] = Except.ok (v :: below) := by
  unfold calcLine
  cases hl : calcLoop D line [] with
  | error err => simp
  | ok numbers =>
    cases numbers with
    | nil => simp [StackSHPP.pop]
    | cons x below => simp [StackSHPP.pop]

/-- C13, as stated, fails: the sanitized input `2(3)` is accepted by
`checkParenthesis` and the pipeline returns a result, the value of `3`, while
two operands are on the stack at the end of the scan; the value of `2` is left
over unused. -/
theorem operand_left_over_counterexample :
    checkParenthesis (filterExpression "2(3)".toList) = true
    ∧ toReversePolishNotation (filterExpression "2(3)".toList) = Except.ok [['2'], ['3']]
    ∧ evaluate symbolicOps "2(3)".toList = Except.ok (Sym.num ['3'])
    ∧ calcLoop symbolicOps [['2'], ['3']] [] = Except.ok [Sym.num ['3'], Sym.num ['2']]
    ∧ ¬ ∃ v, calcLoop symbolicOps [['2'], ['3']] [] = Except.ok [v] := by
  refine ⟨by decide, rfl, rfl, rfl, ?_⟩
  rintro ⟨v, hv⟩
  have h2 : calcLoop symbolicOps [['2'], ['3']] []
      = Except.ok [Sym.num ['3'], Sym.num ['2']] := rfl
  rw [h2] at hv
  cases hv

/-- C13, amended: whenever the pipeline returns a result, the value returned by
`calcLine` is the top of the operand stack at the end of the scan, the value
pushed last. For a well-formed expression it is the sole value on the stack:
exactly one operand remains. -/
theorem calcLine_returns_top (e : WfExpr) (h : ∀ n ∈ e.literals, isLiteral n = true)
    (α : Type) (D : DoubleOps α) :
    (∀ (line : List Str) (v : α), calcLine D line = Except.ok v ↔
        ∃ below : StackSHPP α, calcLoop D line [] = Except.ok (v :: below))
    ∧ (∀ (raw : Str) (v : α), evaluate D raw = Except.ok v →
        ∃ (q : List Str) (below : StackSHPP α),
          toReversePolishNotation (filterExpression raw) = Except.ok q
          ∧ calcLoop D q [] = Except.ok (v :: below))
    ∧ ∃ (q : List Str) (v : α),
        toReversePolishNotation e.text = Except.ok q
        ∧ calcLoop D q [] = Except.ok [v]
        ∧ evaluate D e.text = Except.ok v := by
  refine ⟨calcLine_eq_top D, ?_, ?_⟩
  · intro raw v hv
    unfold evaluate at hv
    simp only at hv
    by_cases hc : checkParenthesis (filterExpression raw) = true
    · rw [if_pos hc] at hv
      cases hq : toReversePolishNotation (filterExpression raw) with
      | error err => rw [hq] at hv; cases hv
      | ok q =>
        rw [hq] at hv
        obtain ⟨below, hb⟩ := (calcLine_eq_top D q v).1 hv
        exact ⟨q, below, rfl, hb⟩
    · rw [if_neg hc] at hv; cases hv
  · have hflt : filterExpression e.text = e.text :=
      filterExpression_flatten _ (wf_tokens e h)
    have hchk : checkParenthesis e.text = true := by
      apply checkParenthesis_of_checkLoop
      have := checkLoop_wf e h [] true []
      rw [List.append_nil] at this
      rw [this]; rfl
    have htok : TokenScanner.tokens e.text = e.tokens := by
      have := scanTokens_wf e h [] (by simp)
      simpa [TokenScanner.tokens, scanTokens] using this
    obtain ⟨q, hq, hd⟩ := rpnOfTokens_wf e h
    obtain ⟨stk, hs1, hs2⟩ := calcLoop_of_depthRun D q [] 1 hd
    match stk, hs2 with
    | [v], _ =>
      refine ⟨q, v, ?_, hs1, ?_⟩
      · rw [toReversePolishNotation, htok, hq]
      · rw [evaluate_of_tokens D _ _ hflt hchk htok, hq]
        exact (calcLine_eq_top D q v).2 ⟨[], hs1⟩

/-- C13 amended, at `-2*(8/4)^2`: one value is on the stack at the end. -/
theorem calcLine_returns_top_witness :
    ∃ (q : List Str) (v : Sym),
      toReversePolishNotation "-2*(8/4)^2".toList = Except.ok q
      ∧ calcLoop symbolicOps q [] = Except.ok [v]
      ∧ evaluate symbolicOps "-2*(8/4)^2".toList = Except.ok v :=
  (calcLine_returns_top
    (WfExpr.opNum
      (WfExpr.opPar (WfExpr.num true ['2']) Op.mul
        (WfExpr.opNum (WfExpr.num false ['8']) Op.div ['4']))
      Op.pow ['2'])
    (by decide) Sym symbolicOps).2.2

end Calculator
